import Mathlib

/-!
Verification of the streaming core of the repository.

This file gives a shallow embedding, over `List Char`, of
* the key/value delta parser (`parseKeyValueDelta`, `parseKeyValueDeltas`),
* the server-push event-stream parser (`createParser`'s `feed` /
  `parseEventStreamLine`),
* the stream multiplexer (`mergeGenerators`),
* the usage-accumulating delta normalizers (`parseGoogleLlmDelta`,
  `parseOpenAiDelta`),
and proves or refutes the specified properties of these components.
-/

namespace Physi

/-! ### Key/value delta parser

Embedding of the pure generator `parseKeyValueDelta` and its streaming
wrapper `parseKeyValueDeltas`.  Strings are modelled as `List Char`.  The
three anchored regular expressions (`kvRegexp`, `incompleteKvRegexp`,
`separatorRegexp`) are embedded as explicit matching functions with the
exact semantics of the originals on every input. -/

/-- Character class `[A-Z0-9_]` of the key regular expressions. -/
def isKeyChar (c : Char) : Bool :=
  ('A' ≤ c && c ≤ 'Z') || ('0' ≤ c && c ≤ '9') || c = '_'

/-- The JavaScript whitespace class: the set matched by the regexp class
`\s` and stripped by `String.prototype.trim` (WhiteSpace plus
LineTerminator code points). -/
def isJsSpace (c : Char) : Bool :=
  c = ' ' || c = '\t' || c = '\n' || c = '\r' || c = '\x0b' || c = '\x0c' ||
  c.toNat = 0xa0 || c.toNat = 0x1680 ||
  (0x2000 ≤ c.toNat && c.toNat ≤ 0x200a) ||
  c.toNat = 0x2028 || c.toNat = 0x2029 || c.toNat = 0x202f ||
  c.toNat = 0x205f || c.toNat = 0x3000 || c.toNat = 0xfeff

/-- JavaScript `String.prototype.trim`: strip `isJsSpace` characters from
both ends. -/
def jsTrim (l : List Char) : List Char :=
  ((l.dropWhile isJsSpace).reverse.dropWhile isJsSpace).reverse

/-- The lookahead `(?=\n\$|\n---)` of `kvRegexp`: does the buffer start
with a line terminator followed by the start of a key line or the
separator marker? -/
def kvLookahead : List Char → Bool
  | '\n' :: '$' :: _ => true
  | '\n' :: '-' :: '-' :: '-' :: _ => true
  | _ => false

/-- Length taken by the lazy group `([\s\S]*?)` of `kvRegexp`: the least
`n` such that the lookahead holds after `n` characters, if any. -/
def kvValueLen : List Char → Option Nat
  | [] => none
  | c :: t => if kvLookahead (c :: t) then some 0 else (kvValueLen t).map (· + 1)

/-- Anchored match of `kvRegexp = /^\$([A-Z0-9_]+):\s([\s\S]*?)(?=\n\$|\n---)/`.
Returns the key group, the (untrimmed) value group and the length of the
whole match `kvMatch[0]`. -/
def kvExec (buffer : List Char) : Option (List Char × List Char × Nat) :=
  match buffer with
  | '$' :: rest =>
    let key := rest.takeWhile isKeyChar
    if key.isEmpty then none
    else
      match rest.drop key.length with
      | ':' :: c :: rest2 =>
        if isJsSpace c then
          match kvValueLen rest2 with
          | some n => some (key, rest2.take n, key.length + 3 + n)
          | none => none
        else none
      | _ => none
  | _ => none

/-- Anchored match of `separatorRegexp`, the regular expression matching
three dashes at the very start of the buffer (whatever follows them). -/
def separatorMatches (buffer : List Char) : Bool :=
  match buffer with
  | '-' :: '-' :: '-' :: _ => true
  | _ => false

/-- Anchored match of `incompleteKvRegexp = /^\$([A-Z0-9_]+):\s(.+)/s`
(dot-matches-newline, so the greedy `.+` takes the whole rest and needs at
least one character).  Returns the key and value groups. -/
def incompleteKvExec (buffer : List Char) : Option (List Char × List Char) :=
  match buffer with
  | '$' :: rest =>
    let key := rest.takeWhile isKeyChar
    if key.isEmpty then none
    else
      match rest.drop key.length with
      | ':' :: c :: rest2 =>
        if isJsSpace c ∧ rest2 ≠ [] then some (key, rest2) else none
      | _ => none
  | _ => none

/-- The token type `KVParse` (plus the `remaining` terminal of the
generator's result type). -/
inductive KVParse where
  | kv (key value : List Char)
  | incomplete_kv (key value remaining : List Char)
  | separator
  | remaining (remaining : List Char)
deriving DecidableEq, Repr

/-- The two blank-line-skipping loops of `parseKeyValueDelta`:
`for (; buffer.length > 0 && buffer[0] === '\n';) buffer = buffer.substring(1)`. -/
def skipNewlines (buffer : List Char) : List Char :=
  buffer.dropWhile (fun c => c = '\n')

/-- The token-producing loop of `parseKeyValueDelta`.  Each iteration of
the source loop first tries `kvRegexp` (on success it yields a trimmed
`kv` token and drops the match plus one character), then tries
`separatorRegexp` on the possibly-updated buffer (on success it yields
`separator`, drops the three marker characters and skips blank lines),
and repeats while either matched.  The nested branches below are that
iteration unfolded; the returned pair is (yielded tokens, final buffer).
The `fuel` argument only bounds the number of iterations: every match
consumes at least three characters, so any `fuel ≥ buffer.length` gives
the source loop's exact behaviour (see `parseKeyValueDeltaLoop_fuel`). -/
def parseKeyValueDeltaLoop : Nat → List Char → List KVParse × List Char
  | 0, buffer => ([], buffer)
  | fuel + 1, buffer =>
    if buffer.isEmpty then ([], buffer)
    else
      match kvExec buffer with
      | some (key, value, len) =>
        let buffer1 := buffer.drop (len + 1)
        if separatorMatches buffer1 then
          let r := parseKeyValueDeltaLoop fuel (skipNewlines (buffer1.drop 3))
          (KVParse.kv key (jsTrim value) :: KVParse.separator :: r.1, r.2)
        else
          let r := parseKeyValueDeltaLoop fuel buffer1
          (KVParse.kv key (jsTrim value) :: r.1, r.2)
      | none =>
        if separatorMatches buffer then
          let r := parseKeyValueDeltaLoop fuel (skipNewlines (buffer.drop 3))
          (KVParse.separator :: r.1, r.2)
        else ([], buffer)

/-- The pure parser `parseKeyValueDelta`: skip leading blank lines, run
the loop, then emit exactly one terminal token — `incomplete_kv` if
`incompleteKvRegexp` matches the unconsumed buffer, else `remaining`. -/
def parseKeyValueDelta (inputBuffer : List Char) : List KVParse :=
  let buffer := skipNewlines inputBuffer
  let r := parseKeyValueDeltaLoop buffer.length buffer
  r.1 ++ [match incompleteKvExec r.2 with
          | some (key, value) => KVParse.incomplete_kv key (jsTrim value) r.2
          | none => KVParse.remaining r.2]

/-- One round of the streaming wrapper's inner `for` loop: walk the token
list of one `parseKeyValueDelta` call, forwarding `kv` and `separator`
tokens, and on the first terminal token return the forwarded tokens (the
terminal `incomplete_kv` is itself forwarded) together with the new
buffer.  `none` models reaching the end of the token list without a
terminal token, the `throw Error` branch of `parseKeyValueDeltas`. -/
def processTokens : List KVParse → Option (List KVParse × List Char)
  | [] => none
  | KVParse.kv k v :: ts =>
    (processTokens ts).map (fun r => (KVParse.kv k v :: r.1, r.2))
  | KVParse.separator :: ts =>
    (processTokens ts).map (fun r => (KVParse.separator :: r.1, r.2))
  | KVParse.incomplete_kv k v rem :: _ =>
    some ([KVParse.incomplete_kv k v rem], rem)
  | KVParse.remaining rem :: _ => some ([], rem)

/-- The streaming wrapper `parseKeyValueDeltas` over a (finite) list of
input fragments, starting from the given running buffer.  Returns the
forwarded tokens, or `none` if some round hits the unreachable
`Unexpected end of parse` branch. -/
def parseKeyValueDeltasAux (buffer : List Char) :
    List (List Char) → Option (List KVParse)
  | [] => some []
  | d :: ds =>
    match processTokens (parseKeyValueDelta (buffer ++ d)) with
    | none => none
    | some (out, b) => (parseKeyValueDeltasAux b ds).map (out ++ ·)

/-- The streaming wrapper `parseKeyValueDeltas`, fed a finite list of
fragments, with the initial empty running buffer. -/
def parseKeyValueDeltas (deltas : List (List Char)) : Option (List KVParse) :=
  parseKeyValueDeltasAux [] deltas

/-- Terminal-token discriminator: the two token kinds that end one
`parseKeyValueDelta` call. -/
def isTerminalKv : KVParse → Bool
  | KVParse.incomplete_kv _ _ _ => true
  | KVParse.remaining _ => true
  | _ => false

/-- The `remaining` field of a terminal token. -/
def remainingOf : KVParse → Option (List Char)
  | KVParse.incomplete_kv _ _ r => some r
  | KVParse.remaining r => some r
  | _ => none

/-- Modelled from the spec: the re-serialization of a token used by the
round-trip property — a key-value token back to its key line plus the
consumed line terminator, a separator token back to the marker plus the
consumed line terminator, and a terminal token contributing its
unconsumed `remaining` buffer. -/
def serializeKVToken : KVParse → List Char
  | KVParse.kv k v => '$' :: (k ++ ':' :: ' ' :: (v ++ ['\n']))
  | KVParse.separator => ['-', '-', '-', '\n']
  | KVParse.incomplete_kv _ _ r => r
  | KVParse.remaining r => r

/-- Modelled from the spec: token-by-token re-serialization of a whole
parse result. -/
def serializeKVTokens (ts : List KVParse) : List Char :=
  (ts.map serializeKVToken).flatten

/-- An item of a canonically rendered key-value document: a key line
`$KEY: value` or a separator line. -/
inductive KVItem where
  | kv (key value : List Char)
  | sep
deriving DecidableEq, Repr

/-- Canonical rendering of one document item. -/
def renderKVItem : KVItem → List Char
  | KVItem.kv k v => '$' :: (k ++ ':' :: ' ' :: (v ++ ['\n']))
  | KVItem.sep => ['-', '-', '-', '\n']

/-- Canonical rendering of a document. -/
def renderKVDoc (d : List KVItem) : List Char := (d.map renderKVItem).flatten

/-- Well-formed key: non-empty and drawn from the key character class. -/
def wfKey (k : List Char) : Prop := k ≠ [] ∧ ∀ c ∈ k, isKeyChar c = true

/-- Well-formed canonical value: non-empty, single-line, and with no
whitespace at either end (so trimming is the identity on it). -/
def wfValue (v : List Char) : Prop :=
  v ≠ [] ∧ '\n' ∉ v ∧
  v.head?.all (fun c => !isJsSpace c) = true ∧
  v.getLast?.all (fun c => !isJsSpace c) = true

/-- Well-formedness of a document item. -/
def wfItem : KVItem → Prop
  | KVItem.kv k v => wfKey k ∧ wfValue v
  | KVItem.sep => True

instance (k : List Char) : Decidable (wfKey k) :=
  inferInstanceAs (Decidable (_ ∧ _))

instance (v : List Char) : Decidable (wfValue v) :=
  inferInstanceAs (Decidable (_ ∧ _))

instance (i : KVItem) : Decidable (wfItem i) :=
  match i with
  | KVItem.kv k v => inferInstanceAs (Decidable (wfKey k ∧ wfValue v))
  | KVItem.sep => inferInstanceAs (Decidable True)

/-- The loop result that parsing a rendered document produces: all items
become tokens, except that a trailing key-value item (which never sees
the lookahead line that would complete it) stays in the buffer. -/
def expectedLoop : List KVItem → List KVParse × List Char
  | [] => ([], [])
  | [KVItem.kv k v] => ([], renderKVDoc [KVItem.kv k v])
  | KVItem.kv k v :: d2 =>
    let r := expectedLoop d2
    (KVParse.kv k v :: r.1, r.2)
  | KVItem.sep :: d2 =>
    let r := expectedLoop d2
    (KVParse.separator :: r.1, r.2)

/-! ### Event-stream parser

Embedding of `createParser` (file `eventsource-parser.ts`).  The closure
state of `createParser` becomes the record `ESState`; `feed` becomes a
function from a state and a chunk to a new state plus the list of events
dispatched to the callback during the call, in order.  JavaScript string
primitives (`slice`, `parseInt`, `charCodeAt` against the byte values of
the UTF-8 byte-order mark) are embedded with their exact semantics. -/

/-- The closure state of `createParser`: processing state plus event
state. -/
structure ESState where
  isFirstChunk : Bool
  buffer : List Char
  startingPosition : Nat
  startingFieldLength : Int
  eventId : Option (List Char)
  eventName : Option (List Char)
  data : List Char
deriving DecidableEq, Repr

/-- The state after `reset()` (also the state of a fresh parser, since
`createParser` calls `reset()` on construction). -/
def reset : ESState :=
  { isFirstChunk := true
    buffer := []
    startingPosition := 0
    startingFieldLength := -1
    eventId := none
    eventName := none
    data := [] }

/-- A dispatched event: `ParsedEvent` (with `event: eventName || undefined`
already applied at dispatch) or `ReconnectInterval`. -/
inductive ParseEvent where
  | event (id : Option (List Char)) (name : Option (List Char)) (data : List Char)
  | reconnectInterval (value : Int)
deriving DecidableEq, Repr

/-- `hasBom`: compares the first three UTF-16 code units of the buffer
against the UTF-8 byte values 239, 187, 191 of the byte-order mark
(`BOM.every((charCode, index) => buffer.charCodeAt(index) === charCode)`;
`charCodeAt` out of range is `NaN` and never equal). -/
def hasBom (buffer : List Char) : Bool :=
  match buffer with
  | c0 :: c1 :: c2 :: _ => c0.toNat = 239 && c1.toNat = 187 && c2.toNat = 191
  | _ => false

/-- The three code units `hasBom` looks for (the UTF-8 byte values of the
byte-order mark read as individual characters). -/
def bomChars : List Char := [Char.ofNat 239, Char.ofNat 187, Char.ofNat 191]

/-- JavaScript `String.prototype.slice` with possibly negative or
out-of-range indices. -/
def jsSlice (l : List Char) (start finish : Int) : List Char :=
  let len : Int := l.length
  let s := if start < 0 then max (len + start) 0 else min start len
  let e := if finish < 0 then max (len + finish) 0 else min finish len
  if s < e then (l.drop s.toNat).take (e - s).toNat else []

/-- JavaScript `parseInt(value, 10)`: skip leading whitespace, an
optional sign, then the longest run of decimal digits; `none` models
`NaN` (no digits found); trailing junk is ignored. -/
def jsParseInt (s : List Char) : Option Int :=
  let t := s.dropWhile isJsSpace
  let signAndRest : Int × List Char :=
    match t with
    | '-' :: r => (-1, r)
    | '+' :: r => (1, r)
    | _ => (1, t)
  let digits := signAndRest.2.takeWhile (fun c => '0' ≤ c && c ≤ '9')
  if digits.isEmpty then none
  else some (signAndRest.1 *
    (digits.foldl (fun acc c => acc * 10 + ((c.toNat : Int) - 48)) 0))

/-- The inner scanning loop of `feed`:
`for (let index = startingPosition; lineLength < 0 && index < length; ++index)`.
`rest` is `buffer.drop index`; the loop reads `buffer[index]`, records the
first field separator while `fieldLength` is negative, arms the
carriage-return flag, and stops once `lineLength` becomes non-negative
(`lineLength` and `fieldLength` are offsets relative to `position` and may
be negative when the loop rescans bytes before `position`). -/
def scanLine (position : Nat) : Nat → List Char → Int → Int → Bool →
    Int × Int × Bool
  | _, [], lineLength, fieldLength, discard => (lineLength, fieldLength, discard)
  | index, character :: rest, lineLength, fieldLength, discard =>
    if lineLength < 0 then
      if character = ':' ∧ fieldLength < 0 then
        scanLine position (index + 1) rest lineLength ((index : Int) - position)
          discard
      else if character = '\r' then
        scanLine position (index + 1) rest ((index : Int) - position) fieldLength
          true
      else if character = '\n' then
        scanLine position (index + 1) rest ((index : Int) - position) fieldLength
          discard
      else scanLine position (index + 1) rest lineLength fieldLength discard
    else (lineLength, fieldLength, discard)

/-- `parseEventStreamLine`: classify one resolved line — blank-line
dispatch, then the `data` / `event` / `id` / `retry` field branches —
returning the updated event state (`eventId`, `eventName`, `data`) and
the events dispatched by this line. -/
def parseEventStreamLine (eventId eventName : Option (List Char))
    (data : List Char) (lineBuffer : List Char) (index : Nat)
    (fieldLength lineLength : Int) :
    Option (List Char) × Option (List Char) × List Char × List ParseEvent :=
  if lineLength = 0 then
    if data.length > 0 then
      (none, none, [],
       [ParseEvent.event eventId
          (match eventName with
           | some n => if n.isEmpty then none else some n
           | none => none)
          (jsSlice data 0 (-1))])
    else (eventId, none, data, [])
  else
    let noValue := fieldLength < 0
    let field := jsSlice lineBuffer index
      (index + (if noValue then lineLength else fieldLength))
    let step : Int :=
      if noValue then lineLength
      else if lineBuffer.get? ((index : Int) + fieldLength + 1).toNat = some ' '
        then fieldLength + 2
      else fieldLength + 1
    let position : Int := (index : Int) + step
    let valueLength := lineLength - step
    let value := jsSlice lineBuffer position (position + valueLength)
    if field = ("data".toList) then
      (eventId, eventName,
       data ++ (if value.isEmpty then ['\n'] else value ++ ['\n']), [])
    else if field = ("event".toList) then
      (eventId, some value, data, [])
    else if field = ("id".toList) ∧ value.contains '\x00' = false then
      (some value, eventName, data, [])
    else if field = ("retry".toList) then
      match jsParseInt value with
      | some retry => (eventId, eventName, data, [ParseEvent.reconnectInterval retry])
      | none => (eventId, eventName, data, [])
    else (eventId, eventName, data, [])

/-- The mutable locals of `feed`'s while loop together with the event
state and the events dispatched so far. -/
structure FeedLoopState where
  position : Nat
  startingPosition : Nat
  startingFieldLength : Int
  eventId : Option (List Char)
  eventName : Option (List Char)
  data : List Char
  events : List ParseEvent
deriving DecidableEq, Repr

/-- The while loop of `feed`.  One iteration: consume a pending
carriage-return flag (absorbing a leading line feed), scan for the next
terminator from `startingPosition`, and either break (no terminator:
remember the scan state) or classify the line and advance.  `fuel` only
bounds the iteration count; each non-breaking iteration advances
`position` by at least one, so any `fuel > buffer.length - position`
gives the source loop's exact behaviour. -/
def feedLoop : Nat → List Char → Bool → FeedLoopState → FeedLoopState
  | 0, _, _, st => st
  | fuel + 1, buffer, discardTrailingNewline, st =>
    if st.position < buffer.length then
      let position1 :=
        if discardTrailingNewline ∧ buffer.get? st.position = some '\n' then
          st.position + 1
        else st.position
      let scanned := scanLine position1 st.startingPosition
        (buffer.drop st.startingPosition) (-1) st.startingFieldLength false
      let lineLength := scanned.1
      let fieldLength := scanned.2.1
      let discard2 := scanned.2.2
      if lineLength < 0 then
        { st with
          position := position1
          startingPosition := buffer.length - position1
          startingFieldLength := fieldLength }
      else
        let parsed := parseEventStreamLine st.eventId st.eventName st.data
          buffer position1 fieldLength lineLength
        feedLoop fuel buffer discard2
          { position := position1 + lineLength.toNat + 1
            startingPosition := 0
            startingFieldLength := -1
            eventId := parsed.1
            eventName := parsed.2.1
            data := parsed.2.2.1
            events := st.events ++ parsed.2.2.2 }
    else st

/-- `feed(chunk)`: append the chunk to the buffer, strip a leading
byte-order mark on the first chunk, run the while loop, then keep exactly
the unconsumed buffer suffix.  Returns the new state and the events
dispatched during the call, in order. -/
def feed (st : ESState) (chunk : List Char) : ESState × List ParseEvent :=
  let buffer0 := if st.buffer.isEmpty then chunk else st.buffer ++ chunk
  let buffer :=
    if st.isFirstChunk ∧ hasBom buffer0 then buffer0.drop bomChars.length
    else buffer0
  let r := feedLoop (buffer.length + 1) buffer false
    { position := 0
      startingPosition := st.startingPosition
      startingFieldLength := st.startingFieldLength
      eventId := st.eventId
      eventName := st.eventName
      data := st.data
      events := [] }
  let newBuffer :=
    if r.position = buffer.length then []
    else if r.position > 0 then buffer.drop r.position
    else buffer
  ({ isFirstChunk := false,
     buffer := newBuffer,
     startingPosition := r.startingPosition,
     startingFieldLength := r.startingFieldLength,
     eventId := r.eventId,
     eventName := r.eventName,
     data := r.data }, r.events)

/-- Feeding a list of fragments in order, collecting all dispatched
events. -/
def feedAll (st : ESState) (chunks : List (List Char)) :
    ESState × List ParseEvent :=
  chunks.foldl (fun acc chunk =>
    let r := feed acc.1 chunk
    (r.1, acc.2 ++ r.2)) (st, [])

/-- Modelled from the spec: `feed` with no byte-order-mark handling at
all, used to state that on every chunk after the first the parser
processes the appended buffer unchanged (a mark appearing there is kept
as ordinary data). -/
def feedSpecNoStrip (st : ESState) (chunk : List Char) :
    ESState × List ParseEvent :=
  let buffer := if st.buffer.isEmpty then chunk else st.buffer ++ chunk
  let r := feedLoop (buffer.length + 1) buffer false
    { position := 0
      startingPosition := st.startingPosition
      startingFieldLength := st.startingFieldLength
      eventId := st.eventId
      eventName := st.eventName
      data := st.data
      events := [] }
  let newBuffer :=
    if r.position = buffer.length then []
    else if r.position > 0 then buffer.drop r.position
    else buffer
  ({ isFirstChunk := false,
     buffer := newBuffer,
     startingPosition := r.startingPosition,
     startingFieldLength := r.startingFieldLength,
     eventId := r.eventId,
     eventName := r.eventName,
     data := r.data }, r.events)

/-! ### Stream multiplexer

Embedding of `mergeGenerators` (file `generators.ts`).  A source
generator is a finite list of values followed by an ending (normal
completion, or a fault raised by its next pull).  The single-threaded
scheduler is made explicit as a list of `MergeStep`s: which source's
outstanding pull the `Promise.race` resolves next, or an early exit by
the downstream consumer.  A slot holds the source's remaining values
(`Slot.active`, exactly one outstanding pull) or is the never-resolving
placeholder installed when a pull resolved with done (`Slot.never`); the
loop's `count` variable always equals the number of active slots, so the
embedding computes it from the slots.  An invalid schedule (racing a
retired or out-of-range slot, or ending before the merge terminates)
yields `none` and represents no execution of the code. -/

/-- How a source generator ends after its values: normal completion, or
a rejected pull. -/
inductive SourceEnd where
  | complete
  | fault
deriving DecidableEq, Repr

/-- A source generator: the values it will yield, then its ending. -/
structure MSource (α : Type) where
  values : List α
  ending : SourceEnd
deriving DecidableEq, Repr

/-- One slot of `nextPromisses`: an outstanding pull on a live source, or
the never-resolving placeholder of a retired source. -/
inductive Slot (α : Type) where
  | active (remaining : List α) (ending : SourceEnd)
  | never
deriving DecidableEq, Repr

/-- Whether the slot still holds a real outstanding pull
(`nextPromisses[index] !== never`). -/
def Slot.isActive {α : Type} : Slot α → Bool
  | Slot.active _ _ => true
  | Slot.never => false

/-- One scheduler decision: which slot's pull the race resolves next, or
the downstream consumer stopping early. -/
inductive MergeStep where
  | pull (i : Nat)
  | consumerStop
deriving DecidableEq, Repr

/-- How the merge loop ended. -/
inductive MergeOutcome where
  | completed
  | faulted
  | stopped
deriving DecidableEq, Repr

/-- The loop's `count` variable: `mergeGenerators` decrements it exactly
when it installs `never`, so it always equals the number of active
slots. -/
def countActive {α : Type} (slots : List (Slot α)) : Nat :=
  slots.countP Slot.isActive

/-- The `for (; count > 0;)` loop of `mergeGenerators`.  Each round races
the outstanding pulls (`steps` says which resolves), then: on a value,
re-issues a pull for that source and yields the value; on done, installs
`never` and decrements the count; on a rejected pull, rethrows
(outcome `faulted`).  `consumerStop` models the downstream consumer
terminating the generator at the yield point (outcome `stopped`). -/
def mergeRunLoop {α : Type} (steps : List MergeStep) (slots : List (Slot α))
    (out : List α) : Option (List α × List (Slot α) × MergeOutcome) :=
  if countActive slots = 0 then some (out, slots, MergeOutcome.completed)
  else
      match steps with
      | [] => none
      | MergeStep.consumerStop :: _ => some (out, slots, MergeOutcome.stopped)
      | MergeStep.pull i :: rest =>
        match slots[i]? with
        | none => none
        | some Slot.never => none
        | some (Slot.active [] SourceEnd.complete) =>
          mergeRunLoop rest (slots.set i Slot.never) out
        | some (Slot.active [] SourceEnd.fault) =>
          some (out, slots, MergeOutcome.faulted)
        | some (Slot.active (v :: vs) e) =>
          mergeRunLoop rest (slots.set i (Slot.active vs e)) (out ++ [v])

/-- The observable result of one `mergeGenerators` run, after the
`finally` sweep: the yielded values, per-slot retirement, which sources
the sweep sent `generator.return(null)` to, the (ignored, un-awaited)
result of each such call (`some b` with `b` true when that return call
itself failed), and how the run ended. -/
structure MergeResult (α : Type) where
  output : List α
  retired : List Bool
  signaled : List Bool
  returnResults : List (Option Bool)
  outcome : MergeOutcome
deriving DecidableEq, Repr

/-- A whole `mergeGenerators` run: issue one initial pull per source, run
the loop, then perform the `finally` sweep — every slot still holding a
real pull gets `generator.return(null)`, whose result (success or
failure, per `returnFaults`) is recorded but ignored and never replaces
the loop's outcome. -/
def mergeRun {α : Type} (sources : List (MSource α)) (steps : List MergeStep)
    (returnFaults : List Bool) : Option (MergeResult α) :=
  match mergeRunLoop steps
    (sources.map fun s => Slot.active s.values s.ending) [] with
  | none => none
  | some (out, slots, oc) =>
    some { output := out
           retired := slots.map (fun s => !s.isActive)
           signaled := slots.map Slot.isActive
           returnResults := (List.range slots.length).map fun i =>
             if (slots[i]?.map Slot.isActive).getD false then
               some (returnFaults.getD i false)
             else none
           outcome := oc }

/-- Sources of tagged values: source `i`'s values are tagged with `i`, so
that provenance and multiplicity are observable in the merged output. -/
def tagSources {α : Type} (src : List (List α)) : List (MSource (Nat × α)) :=
  src.enum.map fun p =>
    { values := p.2.map (fun a => (p.1, a)), ending := SourceEnd.complete }

/-- Tagged sources with explicit endings. -/
def tagSourcesWith {α : Type} (src : List (List α × SourceEnd)) :
    List (MSource (Nat × α)) :=
  src.enum.map fun p =>
    { values := p.2.1.map (fun a => (p.1, a)), ending := p.2.2 }

/-- The sub-list of the merged output that came from source `i`. -/
def filterTag {α : Type} (i : Nat) (out : List (Nat × α)) : List (Nat × α) :=
  out.filter (fun p => p.1 == i)

/-- The run invariant tying slot `i` to tagged source `i`: an active slot
holds exactly the source's not-yet-yielded suffix; a retired slot means
the source completed normally with all its values yielded. -/
def SlotInvariant {α : Type} (tagged : List (MSource (Nat × α)))
    (out : List (Nat × α)) (i : Nat) (h : i < tagged.length) :
    Slot (Nat × α) → Prop
  | Slot.active rem e =>
    e = (tagged.get ⟨i, h⟩).ending ∧
    filterTag i out ++ rem = (tagged.get ⟨i, h⟩).values
  | Slot.never =>
    (tagged.get ⟨i, h⟩).ending = SourceEnd.complete ∧
    filterTag i out = (tagged.get ⟨i, h⟩).values

/-! ### Usage-accumulating delta normalizers

Embedding of `parseGoogleLlmDelta` and `parseOpenAiDelta` after schema
validation (`googleLlmDeltaSchema`, `openAiCompletionChunkSchema`): the
validated chunk shapes become structures, and each adapter becomes a
function from a chunk and the shared `LLMUsage` accumulator to the
normalized delta plus the updated accumulator (the original functions
mutate the accumulator in place). -/

/-- `LLMUsage` from the normalizer modules: every field is optional and starts unset
(`const llmUsage: LLMUsage = {}`). -/
structure LLMUsage where
  responseModel : Option String := none
  promptTokens : Option Nat := none
  completionTokens : Option Nat := none
deriving DecidableEq, Repr

/-- `LLMDelta`: normalized per-chunk output of the adapters. -/
structure LLMDelta where
  index : Nat
  content : Option String := none
  isLast : Option Bool := none
deriving DecidableEq, Repr

/-- Initial accumulator, `const llmUsage: LLMUsage = {}`. -/
def llmUsageInit : LLMUsage := {}

/-- `usageMetadata` object of a Google streaming chunk (all three counts optional). -/
structure GoogleUsageMetadata where
  promptTokenCount : Option Nat := none
  candidatesTokenCount : Option Nat := none
  totalTokenCount : Option Nat := none
deriving DecidableEq, Repr

/-- One element of `content.parts` in a Google chunk. -/
structure GooglePart where
  text : String
deriving DecidableEq, Repr

/-- `content` of a Google candidate: a role (the schema pins it to the literal
string `model`) and a list of parts. -/
structure GoogleContent where
  role : String
  parts : List GooglePart
deriving DecidableEq, Repr

/-- One candidate of a Google chunk; `finishReason` is an optional enum string. -/
structure GoogleCandidate where
  finishReason : Option String := none
  content : GoogleContent
deriving DecidableEq, Repr

/-- A Google streaming chunk after schema validation (`googleLlmDeltaSchema`).
The schema additionally forces `candidates.length = 1`. -/
structure GoogleLlmChunk where
  candidates : List GoogleCandidate
  usageMetadata : Option GoogleUsageMetadata := none
  modelVersion : String
deriving DecidableEq, Repr

/-- The guard of the usage write in `parseGoogleLlmDelta`:
`chunk.usageMetadata && promptTokenCount !== undefined && candidatesTokenCount !== undefined`. -/
def googleHasCounts (chunk : GoogleLlmChunk) : Bool :=
  match chunk.usageMetadata with
  | some m => m.promptTokenCount.isSome && m.candidatesTokenCount.isSome
  | none => false

/-- `parseGoogleLlmDelta` (part_007): mutates the shared usage accumulator —
both token counts are overwritten iff the guard holds, `responseModel` is
overwritten unconditionally — and returns the normalized delta. The JS function
mutates `usage` in place; here the updated accumulator is returned as the second
component. -/
def parseGoogleLlmDelta (chunk : GoogleLlmChunk) (usage : LLMUsage) :
    LLMDelta × LLMUsage :=
  let usage :=
    if googleHasCounts chunk then
      { usage with
          promptTokens := chunk.usageMetadata.bind GoogleUsageMetadata.promptTokenCount
          completionTokens := chunk.usageMetadata.bind GoogleUsageMetadata.candidatesTokenCount }
    else usage
  let usage := { usage with responseModel := some chunk.modelVersion }
  let delta : LLMDelta :=
    match chunk.candidates with
    | c :: _ =>
      { index := 0
        content := c.content.parts.head?.map GooglePart.text
        isLast := if c.finishReason.isSome then some true else none }
    | [] => { index := 0 }
  (delta, usage)

/-- `usage` object of an OpenAI chunk: the three counts are required numbers,
the two detail sub-objects are optional. -/
structure OpenAiUsage where
  prompt_tokens : Nat
  completion_tokens : Nat
  total_tokens : Nat
  cached_tokens : Option Nat := none
  reasoning_tokens : Option Nat := none
deriving DecidableEq, Repr

/-- `delta` of an OpenAI choice (`content` optional/nullable). -/
structure OpenAiChoiceDelta where
  content : Option String := none
deriving DecidableEq, Repr

/-- One element of `choices` in an OpenAI chunk. -/
structure OpenAiChoice where
  index : Nat
  delta : OpenAiChoiceDelta
  finish_reason : Option String := none
deriving DecidableEq, Repr

/-- An OpenAI streaming chunk after schema validation (`openAiCompletionChunkSchema`);
`usage` is nullable/optional, both collapsing to `none`. -/
structure OpenAiChunk where
  id : String
  created : Int
  model : String
  choices : List OpenAiChoice
  usage : Option OpenAiUsage := none
deriving DecidableEq, Repr

/-- `parseOpenAiDelta` (part_006): overwrites `responseModel` unconditionally,
then both token counts iff `chunk.usage` is present; with empty `choices` and no
`usage` the JS function throws (modelled as a `none` delta — the usage mutations
have already happened at that point), otherwise it returns the normalized delta. -/
def parseOpenAiDelta (chunk : OpenAiChunk) (usage : LLMUsage) :
    Option LLMDelta × LLMUsage :=
  let usage := { usage with responseModel := some chunk.model }
  let usage :=
    match chunk.usage with
    | some u =>
      { usage with
          promptTokens := some u.prompt_tokens
          completionTokens := some u.completion_tokens }
    | none => usage
  let delta : Option LLMDelta :=
    match chunk.choices with
    | [] =>
      if chunk.usage.isSome then some { index := 0, isLast := some true } else none
    | choice :: _ =>
      some { index := choice.index
             content := choice.delta.content
             isLast := some choice.finish_reason.isSome }
  (delta, usage)

/-- Accumulator state after feeding a sequence of validated Google chunks
through `parseGoogleLlmDelta` with one shared accumulator. -/
def googleUsageAfter (u0 : LLMUsage) (cs : List GoogleLlmChunk) : LLMUsage :=
  cs.foldl (fun u c => (parseGoogleLlmDelta c u).2) u0

/-- Accumulator state after feeding a sequence of validated OpenAI chunks
through `parseOpenAiDelta` with one shared accumulator. -/
def openAiUsageAfter (u0 : LLMUsage) (cs : List OpenAiChunk) : LLMUsage :=
  cs.foldl (fun u c => (parseOpenAiDelta c u).2) u0

/-- The value the last writer left in a field: scanning the chunk sequence from
the end, the first chunk satisfying the write guard `p` supplies the field via
`g`; if no chunk wrote, the field keeps its prior value `dflt`. -/
def lastWrote {C β : Type} (p : C → Bool) (g : C → Option β) (cs : List C)
    (dflt : Option β) : Option β :=
  match cs.reverse.find? p with
  | some c => g c
  | none => dflt

/-- First Google probe chunk: counts 3/1, model `gemini-1`. -/
def googleProbe1 : GoogleLlmChunk :=
  { candidates := [{ content := { role := "model", parts := [{ text := "hi" }] } }]
    usageMetadata := some { promptTokenCount := some 3, candidatesTokenCount := some 1,
                            totalTokenCount := some 4 }
    modelVersion := "gemini-1" }

/-- Second Google probe chunk with differing counts 10/7 and model `gemini-2`. -/
def googleProbe2 : GoogleLlmChunk :=
  { candidates := [{ finishReason := some "STOP"
                     content := { role := "model", parts := [{ text := "!" }] } }]
    usageMetadata := some { promptTokenCount := some 10, candidatesTokenCount := some 7,
                            totalTokenCount := some 17 }
    modelVersion := "gemini-2" }

/-- First OpenAI probe chunk: counts 5/2, model `gpt-a`. -/
def openAiProbe1 : OpenAiChunk :=
  { id := "c1", created := 1, model := "gpt-a"
    choices := [{ index := 0, delta := { content := some "hi" } }]
    usage := some { prompt_tokens := 5, completion_tokens := 2, total_tokens := 7 } }

/-- Second OpenAI probe chunk with differing counts 21/9 and model `gpt-b`. -/
def openAiProbe2 : OpenAiChunk :=
  { id := "c2", created := 2, model := "gpt-b"
    choices := []
    usage := some { prompt_tokens := 21, completion_tokens := 9, total_tokens := 30 } }

/-! ### Theorems: key/value delta parser -/

theorem takeWhile_length_le (p : Char → Bool) (l : List Char) :
    (l.takeWhile p).length ≤ l.length := by
  have h := congrArg List.length (List.takeWhile_append_dropWhile (p := p) (l := l))
  simp only [List.length_append] at h
  omega

theorem dropWhile_length_le (p : Char → Bool) (l : List Char) :
    (l.dropWhile p).length ≤ l.length := by
  have h := congrArg List.length (List.takeWhile_append_dropWhile (p := p) (l := l))
  simp only [List.length_append] at h
  omega

theorem skipNewlines_length_le (l : List Char) :
    (skipNewlines l).length ≤ l.length :=
  dropWhile_length_le _ _

theorem kvLookahead_length {l : List Char} (h : kvLookahead l = true) :
    2 ≤ l.length := by
  unfold kvLookahead at h
  split at h <;> simp_all

theorem kvValueLen_le {l : List Char} {n : Nat} (h : kvValueLen l = some n) :
    n + 2 ≤ l.length := by
  induction l generalizing n with
  | nil => simp [kvValueLen] at h
  | cons c t ih =>
    rw [kvValueLen] at h
    by_cases hla : kvLookahead (c :: t)
    · simp only [hla, if_true, Option.some.injEq] at h
      subst h
      exact kvLookahead_length hla
    · simp only [hla] at h
      cases hm : kvValueLen t with
      | none => rw [hm] at h; simp at h
      | some m =>
        rw [hm] at h
        have h2 : m + 1 = n := by
          simpa using h
        have := ih hm
        simp only [List.length_cons]
        omega

theorem kvExec_length {buffer : List Char} {k v : List Char} {n : Nat}
    (h : kvExec buffer = some (k, v, n)) : n + 2 ≤ buffer.length := by
  unfold kvExec at h
  split at h
  next rest =>
    by_cases hk : (rest.takeWhile isKeyChar).isEmpty
    · rw [if_pos hk] at h; simp at h
    · rw [if_neg hk] at h
      split at h
      next c rest2 hd =>
        by_cases hsp : isJsSpace c
        · rw [if_pos hsp] at h
          split at h
          next m hv =>
            simp only [Option.some.injEq, Prod.mk.injEq] at h
            obtain ⟨-, -, hn⟩ := h
            have h1 : (rest.takeWhile isKeyChar).length ≤ rest.length :=
              takeWhile_length_le _ _
            have h2 : (rest.drop (rest.takeWhile isKeyChar).length).length =
                rest.length - (rest.takeWhile isKeyChar).length := by
              simp
            rw [hd] at h2
            have h3 := kvValueLen_le hv
            simp only [List.length_cons] at h2
            simp only [List.length_cons]
            omega
          next => simp at h
        · rw [if_neg hsp] at h; simp at h
      all_goals simp at h
  next => simp at h

/-- Any fuel at least the buffer length yields the same loop result: the
loop is fuel-independent in the regime the parser uses it. -/
theorem parseKeyValueDeltaLoop_fuel :
    ∀ (fuel fuel' : Nat) (buffer : List Char),
      buffer.length ≤ fuel → buffer.length ≤ fuel' →
      parseKeyValueDeltaLoop fuel buffer = parseKeyValueDeltaLoop fuel' buffer := by
  intro fuel
  induction fuel using Nat.strong_induction_on with
  | _ fuel ih =>
    intro fuel' buffer hf hf'
    match fuel, fuel' with
    | 0, 0 => rfl
    | 0, f' + 1 =>
      have : buffer = [] := List.length_eq_zero.mp (Nat.le_zero.mp hf)
      subst this
      simp [parseKeyValueDeltaLoop]
    | f + 1, 0 =>
      have : buffer = [] := List.length_eq_zero.mp (Nat.le_zero.mp hf')
      subst this
      simp [parseKeyValueDeltaLoop]
    | f + 1, f' + 1 =>
      rw [parseKeyValueDeltaLoop, parseKeyValueDeltaLoop]
      by_cases hb : buffer.isEmpty
      · simp [hb]
      · simp only [hb, if_false]
        cases hkv : kvExec buffer with
        | some r =>
          obtain ⟨key, value, len⟩ := r
          have hlen := kvExec_length hkv
          by_cases hsep : separatorMatches (buffer.drop (len + 1))
          · simp only [hsep, if_true]
            have h1 : (skipNewlines ((buffer.drop (len + 1)).drop 3)).length ≤ f := by
              have := skipNewlines_length_le ((buffer.drop (len + 1)).drop 3)
              simp only [List.length_drop] at this
              omega
            have h2 : (skipNewlines ((buffer.drop (len + 1)).drop 3)).length ≤ f' := by
              have := skipNewlines_length_le ((buffer.drop (len + 1)).drop 3)
              simp only [List.length_drop] at this
              omega
            rw [ih f (Nat.lt_succ_self f) f' _ h1 h2]
          · simp only [hsep, if_false]
            have h1 : (buffer.drop (len + 1)).length ≤ f := by
              simp only [List.length_drop]; omega
            have h2 : (buffer.drop (len + 1)).length ≤ f' := by
              simp only [List.length_drop]; omega
            rw [ih f (Nat.lt_succ_self f) f' _ h1 h2]
            all_goals simp
        | none =>
          by_cases hsep : separatorMatches buffer
          · simp only [hsep, if_true]
            have hb3 : 3 ≤ buffer.length := by
              unfold separatorMatches at hsep
              split at hsep <;> simp_all
            have h1 : (skipNewlines (buffer.drop 3)).length ≤ f := by
              have := skipNewlines_length_le (buffer.drop 3)
              simp only [List.length_drop] at this
              omega
            have h2 : (skipNewlines (buffer.drop 3)).length ≤ f' := by
              have := skipNewlines_length_le (buffer.drop 3)
              simp only [List.length_drop] at this
              omega
            rw [ih f (Nat.lt_succ_self f) f' _ h1 h2]
          · simp [hsep]

theorem parseKeyValueDeltaLoop_no_terminal :
    ∀ (fuel : Nat) (buffer : List Char),
      ∀ x ∈ (parseKeyValueDeltaLoop fuel buffer).1, isTerminalKv x = false := by
  intro fuel
  induction fuel with
  | zero => intro buffer x hx; simp [parseKeyValueDeltaLoop] at hx
  | succ f ih =>
    intro buffer
    rw [parseKeyValueDeltaLoop]
    by_cases hb : buffer.isEmpty
    · simp [hb]
    · simp only [hb, if_false]
      cases hkv : kvExec buffer with
      | some r =>
        obtain ⟨key, value, len⟩ := r
        by_cases hsep : separatorMatches (buffer.drop (len + 1))
        · simp only [hsep, if_true]
          intro x hx
          rcases List.mem_cons.mp hx with h | hx1
          · subst h; rfl
          rcases List.mem_cons.mp hx1 with h | hx2
          · subst h; rfl
          exact ih _ x hx2
        · simp only [hsep, if_false]
          intro x hx
          rcases List.mem_cons.mp hx with h | hx1
          · subst h; rfl
          exact ih _ x hx1
      | none =>
        by_cases hsep : separatorMatches buffer
        · simp only [hsep, if_true]
          intro x hx
          rcases List.mem_cons.mp hx with h | hx1
          · subst h; rfl
          exact ih _ x hx1
        · simp [hsep]

/-- The structural form of one `parseKeyValueDelta` call: the loop tokens
(none of them terminal) followed by exactly one terminal token whose
`remaining` field is the loop's unconsumed buffer. -/
theorem parseKeyValueDelta_split (buffer : List Char) :
    ∃ ts t, parseKeyValueDelta buffer = ts ++ [t] ∧
      (∀ x ∈ ts, isTerminalKv x = false) ∧ isTerminalKv t = true ∧
      remainingOf t =
        some (parseKeyValueDeltaLoop (skipNewlines buffer).length
          (skipNewlines buffer)).2 := by
  have hnt := parseKeyValueDeltaLoop_no_terminal
    (skipNewlines buffer).length (skipNewlines buffer)
  cases hik : incompleteKvExec
      (parseKeyValueDeltaLoop (skipNewlines buffer).length (skipNewlines buffer)).2 with
  | some r =>
    obtain ⟨k, v⟩ := r
    refine ⟨_, KVParse.incomplete_kv k (jsTrim v)
      (parseKeyValueDeltaLoop (skipNewlines buffer).length (skipNewlines buffer)).2,
      ?_, hnt, rfl, rfl⟩
    simp only [parseKeyValueDelta]
    rw [hik]
  | none =>
    refine ⟨_, KVParse.remaining
      (parseKeyValueDeltaLoop (skipNewlines buffer).length (skipNewlines buffer)).2,
      ?_, hnt, rfl, rfl⟩
    simp only [parseKeyValueDelta]
    rw [hik]

theorem processTokens_split {ts : List KVParse} {t : KVParse}
    (hts : ∀ x ∈ ts, isTerminalKv x = false) (ht : isTerminalKv t = true) :
    ∃ out b, processTokens (ts ++ [t]) = some (out, b) := by
  induction ts with
  | nil =>
    cases t with
    | kv k v => simp [isTerminalKv] at ht
    | separator => simp [isTerminalKv] at ht
    | incomplete_kv k v r => exact ⟨_, _, rfl⟩
    | remaining r => exact ⟨_, _, rfl⟩
  | cons x ts ih =>
    have hx := hts x (List.mem_cons_self x ts)
    have hrec := ih (fun y hy => hts y (List.mem_cons_of_mem x hy))
    obtain ⟨out, b, hob⟩ := hrec
    cases x with
    | kv k v => exact ⟨KVParse.kv k v :: out, b, by simp [processTokens, hob]⟩
    | separator => exact ⟨KVParse.separator :: out, b, by simp [processTokens, hob]⟩
    | incomplete_kv k v r => simp [isTerminalKv] at hx
    | remaining r => simp [isTerminalKv] at hx

theorem parseKeyValueDeltasAux_ne_none :
    ∀ (ds : List (List Char)) (buffer : List Char),
      parseKeyValueDeltasAux buffer ds ≠ none := by
  intro ds
  induction ds with
  | nil => intro buffer; simp [parseKeyValueDeltasAux]
  | cons d ds ih =>
    intro buffer
    obtain ⟨ts, t, hsplit, hts, ht, -⟩ := parseKeyValueDelta_split (buffer ++ d)
    obtain ⟨out, b, hpt⟩ := processTokens_split hts ht
    unfold parseKeyValueDeltasAux
    rw [hsplit, hpt]
    cases haux : parseKeyValueDeltasAux b ds with
    | none => exact absurd haux (ih b)
    | some l => simp [haux]

/-- C4.  Terminal-token structural invariant of the key-value parser: for
every input, the token sequence of one `parseKeyValueDelta` call ends in
exactly one terminal token (`incomplete_kv` or `remaining`), every
earlier token is non-terminal, the terminal token's `remaining` field is
the whole unconsumed buffer, and consequently the streaming wrapper
`parseKeyValueDeltas` never reaches its `Unexpected end of parse` branch
(modelled as the result `none`). -/
theorem kv_terminal_token_invariant :
    (∀ buffer : List Char, ∃ ts t, parseKeyValueDelta buffer = ts ++ [t] ∧
      (∀ x ∈ ts, isTerminalKv x = false) ∧ isTerminalKv t = true ∧
      remainingOf t =
        some (parseKeyValueDeltaLoop (skipNewlines buffer).length
          (skipNewlines buffer)).2) ∧
    (∀ ds : List (List Char), parseKeyValueDeltas ds ≠ none) := by
  refine ⟨parseKeyValueDelta_split, ?_⟩
  intro ds
  unfold parseKeyValueDeltas
  exact parseKeyValueDeltasAux_ne_none ds []

/-- Closed witness for the C4 theorem at a concrete input. -/
theorem kv_terminal_token_invariant_witness :
    parseKeyValueDeltas [("$K:\nval".toList), ("ue\n---\n".toList)] ≠ none := by
  exact kv_terminal_token_invariant.2 _

theorem separatorMatches_iff {b : List Char} :
    separatorMatches b = true ↔ ∃ rest, b = '-' :: '-' :: '-' :: rest := by
  unfold separatorMatches
  split
  · next rest => simp
  · next hne =>
    constructor
    · intro h; simp at h
    · rintro ⟨rest, rfl⟩
      exact absurd rfl (hne rest)

theorem skipNewlines_skipNewlines (l : List Char) :
    skipNewlines (skipNewlines l) = skipNewlines l := by
  unfold skipNewlines
  induction l with
  | nil => rfl
  | cons c t ih =>
    by_cases hc : c = '\n'
    · simp [hc, ih]
    · simp [List.dropWhile_cons, hc]

/-- Unfolding one loop iteration in which only the separator branch
fires. -/
theorem parseKeyValueDeltaLoop_sep_step {sb : List Char} {fuel : Nat}
    (hkv : kvExec sb = none) (hsep : separatorMatches sb = true) :
    parseKeyValueDeltaLoop (fuel + 1) sb =
      (KVParse.separator ::
        (parseKeyValueDeltaLoop fuel (skipNewlines (sb.drop 3))).1,
       (parseKeyValueDeltaLoop fuel (skipNewlines (sb.drop 3))).2) := by
  obtain ⟨rest, rfl⟩ := separatorMatches_iff.mp hsep
  rw [parseKeyValueDeltaLoop]
  simp [hkv, hsep]

/-- Unfolding one loop iteration in which the key-value branch fires:
the first produced token is the key-value token. -/
theorem parseKeyValueDeltaLoop_kv_head {sb k v : List Char} {len fuel : Nat}
    (hkv : kvExec sb = some (k, v, len)) :
    ∃ rest rem, parseKeyValueDeltaLoop (fuel + 1) sb =
      (KVParse.kv k (jsTrim v) :: rest, rem) := by
  have hne : sb.isEmpty = false := by
    have := kvExec_length hkv
    cases sb
    · simp at this
    · simp
  rw [parseKeyValueDeltaLoop]
  rw [hne]
  simp only [Bool.false_eq_true, if_false, hkv]
  by_cases hsep : separatorMatches (sb.drop (len + 1))
  · simp only [hsep, if_true]
    exact ⟨_, _, rfl⟩
  · simp only [hsep, if_false]
    exact ⟨_, _, rfl⟩

/-- When the separator branch fires first, the whole parse is a
`separator` token followed by the parse of the buffer after the three
marker characters. -/
theorem parseKeyValueDelta_sep_unfold {b : List Char}
    (hkv : kvExec (skipNewlines b) = none)
    (hsep : separatorMatches (skipNewlines b) = true) :
    parseKeyValueDelta b =
      KVParse.separator :: parseKeyValueDelta ((skipNewlines b).drop 3) := by
  obtain ⟨rest, hrest⟩ := separatorMatches_iff.mp hsep
  have hlen : (skipNewlines b).length = rest.length + 3 := by
    rw [hrest]; simp
  have hdrop : (skipNewlines b).drop 3 = rest := by rw [hrest]; rfl
  have hskiprest : skipNewlines ((skipNewlines b).drop 3) = skipNewlines rest := by
    rw [hdrop]
  have hfuel := parseKeyValueDeltaLoop_fuel (rest.length + 2)
    (skipNewlines rest).length (skipNewlines rest)
    (le_trans (skipNewlines_length_le rest) (by omega)) (le_refl _)
  simp only [parseKeyValueDelta]
  rw [hlen, parseKeyValueDeltaLoop_sep_step hkv hsep, hskiprest, hfuel]
  simp

/-- C9 counterexample: at a line reading `---extra` (the marker followed
by further characters, hence not a line consisting solely of the
marker), `parseKeyValueDelta` does emit a `separator` token and consumes
only the three marker characters, refuting the claimed
solely-the-marker condition. -/
theorem separator_solely_marker_counterexample :
    parseKeyValueDelta ("---extra".toList) =
      [KVParse.separator, KVParse.remaining ("extra".toList)] := by
  decide

/-- C9 (amended).  `parseKeyValueDelta` emits a `separator` token at the
current parse position precisely when `kvRegexp` does not match there and
the buffer starts with the three marker characters, regardless of what
follows them; on a match only the three marker characters (plus the blank
lines after them) are consumed. -/
theorem separator_recognition :
    ∀ b : List Char,
      ((parseKeyValueDelta b).head? = some KVParse.separator ↔
        (kvExec (skipNewlines b) = none ∧
          separatorMatches (skipNewlines b) = true)) ∧
      (kvExec (skipNewlines b) = none →
        separatorMatches (skipNewlines b) = true →
        parseKeyValueDelta b =
          KVParse.separator :: parseKeyValueDelta ((skipNewlines b).drop 3)) := by
  intro b
  refine ⟨?_, fun hkv hsep => parseKeyValueDelta_sep_unfold hkv hsep⟩
  constructor
  · intro hhead
    by_cases hkv : kvExec (skipNewlines b) = none
    · by_cases hsep : separatorMatches (skipNewlines b) = true
      · exact ⟨hkv, hsep⟩
      · -- no match at all: the parse is a single terminal token
        exfalso
        have hloop : parseKeyValueDeltaLoop (skipNewlines b).length (skipNewlines b) =
            ([], skipNewlines b) := by
          cases hn : (skipNewlines b).length with
          | zero => rfl
          | succ m =>
            rw [parseKeyValueDeltaLoop]
            have hne : (skipNewlines b).isEmpty = false := by
              cases hsb : skipNewlines b
              · rw [hsb] at hn; simp at hn
              · simp
            rw [hne]
            simp [hkv, hsep]
        simp only [parseKeyValueDelta, hloop] at hhead
        cases hik : incompleteKvExec (skipNewlines b) with
        | some r =>
          obtain ⟨k, v⟩ := r
          rw [hik] at hhead
          simp at hhead
        | none =>
          rw [hik] at hhead
          simp at hhead
    · exfalso
      obtain ⟨⟨k, v, len⟩, hkv'⟩ := Option.ne_none_iff_exists'.mp hkv
      have hlen := kvExec_length hkv'
      obtain ⟨m, hm⟩ : ∃ m, (skipNewlines b).length = m + 1 := by
        cases hn : (skipNewlines b).length
        · omega
        · exact ⟨_, rfl⟩
      obtain ⟨rest, rem, hkvstep⟩ :=
        @parseKeyValueDeltaLoop_kv_head _ _ _ _ m hkv'
      simp only [parseKeyValueDelta, hm, hkvstep] at hhead
      simp at hhead
  · rintro ⟨hkv, hsep⟩
    rw [parseKeyValueDelta_sep_unfold hkv hsep]
    rfl

/-- Closed witness for the amended C9 theorem at a concrete input. -/
theorem separator_recognition_witness :
    parseKeyValueDelta ("---x".toList) =
      KVParse.separator ::
        parseKeyValueDelta ((skipNewlines ("---x".toList)).drop 3) :=
  (separator_recognition _).2 (by decide) (by decide)

theorem kvExec_cons_ne {c : Char} {l : List Char} (h : ¬ c = '$') :
    kvExec (c :: l) = none := by
  unfold kvExec
  split
  next => simp_all
  next => rfl

theorem separatorMatches_cons_ne {c : Char} {l : List Char} (h : ¬ c = '-') :
    separatorMatches (c :: l) = false := by
  unfold separatorMatches
  split
  next => simp_all
  next => rfl

theorem kvLookahead_cons_ne {c : Char} {l : List Char} (h : ¬ c = '\n') :
    kvLookahead (c :: l) = false := by
  unfold kvLookahead
  split
  next => simp_all
  next => simp_all
  next => rfl

theorem dropWhile_eq_self_of_head {p : Char → Bool} {l : List Char}
    (h : ∀ c, l.head? = some c → p c = false) : l.dropWhile p = l := by
  cases l with
  | nil => rfl
  | cons c t =>
    rw [List.dropWhile_cons_of_neg]
    simp [h c rfl]

theorem jsTrim_eq_self {v : List Char} (hv : wfValue v) : jsTrim v = v := by
  obtain ⟨-, -, hhead, hlast⟩ := hv
  have hhead2 : ∀ c, v.head? = some c → isJsSpace c = false := by
    intro c hc
    rw [hc] at hhead
    simpa using hhead
  have hlast2 : ∀ c, v.getLast? = some c → isJsSpace c = false := by
    intro c hc
    rw [hc] at hlast
    simpa using hlast
  unfold jsTrim
  rw [dropWhile_eq_self_of_head hhead2]
  rw [dropWhile_eq_self_of_head (by
    intro c hc
    exact hlast2 c (by rwa [← List.head?_reverse]))]
  exact List.reverse_reverse v

theorem takeWhile_all_cons {p : Char → Bool} {k t : List Char} {x : Char}
    (hk : ∀ c ∈ k, p c = true) (hx : p x = false) :
    (k ++ x :: t).takeWhile p = k := by
  induction k with
  | nil => simp [List.takeWhile_cons, hx]
  | cons c k2 ih =>
    have hc := hk c (List.mem_cons_self c k2)
    simp only [List.cons_append, List.takeWhile_cons, hc, if_true]
    rw [ih (fun y hy => hk y (List.mem_cons_of_mem c hy))]

theorem renderKVDoc_cons (i : KVItem) (d : List KVItem) :
    renderKVDoc (i :: d) = renderKVItem i ++ renderKVDoc d := by
  simp [renderKVDoc]

theorem kvLookahead_newline_render (i : KVItem) (d : List KVItem) :
    kvLookahead ('\n' :: renderKVDoc (i :: d)) = true := by
  rw [renderKVDoc_cons]
  cases i with
  | kv k v => simp [renderKVItem, kvLookahead]
  | sep => simp [renderKVItem, kvLookahead]

theorem kvValueLen_append {v s : List Char} (hnv : '\n' ∉ v)
    (hs : kvLookahead s = true) : kvValueLen (v ++ s) = some v.length := by
  induction v with
  | nil =>
    cases s with
    | nil => simp [kvLookahead] at hs
    | cons c t => simp [kvValueLen, hs]
  | cons c v2 ih =>
    have hc : ¬ c = '\n' := fun h => hnv (by simp [h])
    have hih := ih (fun h => hnv (List.mem_cons_of_mem c h))
    simp only [List.cons_append, kvValueLen, kvLookahead_cons_ne hc,
      Bool.false_eq_true, if_false, Option.map_some']
    simp [hih]

theorem kvValueLen_trailing_newline {v : List Char} (hnv : '\n' ∉ v) :
    kvValueLen (v ++ ['\n']) = none := by
  induction v with
  | nil => simp [kvValueLen, kvLookahead]
  | cons c v2 ih =>
    have hc : ¬ c = '\n' := fun h => hnv (by simp [h])
    have hih := ih (fun h => hnv (List.mem_cons_of_mem c h))
    simp [List.cons_append, kvValueLen, kvLookahead_cons_ne hc, hih]

/-- On the rendering of a well-formed key-value item followed by at least
one more item, `kvRegexp` matches exactly the item: key and raw value
groups are the item's, and the match spans the key line without its
terminator. -/
theorem kvExec_render_cons {k v : List Char} {i : KVItem} {d2 : List KVItem}
    (hk : wfKey k) (hv : wfValue v) :
    kvExec (renderKVDoc (KVItem.kv k v :: i :: d2)) =
      some (k, v, k.length + 3 + v.length) := by
  obtain ⟨hkne, hkall⟩ := hk
  obtain ⟨-, hnv, -, -⟩ := hv
  rw [renderKVDoc_cons]
  have hshape : renderKVItem (KVItem.kv k v) ++ renderKVDoc (i :: d2) =
      '$' :: (k ++ ':' :: ' ' :: (v ++ '\n' :: renderKVDoc (i :: d2))) := by
    simp [renderKVItem]
  rw [hshape]
  have htake : (k ++ ':' :: ' ' :: (v ++ '\n' :: renderKVDoc (i :: d2))).takeWhile
      isKeyChar = k :=
    takeWhile_all_cons hkall (by decide)
  have hempty : k.isEmpty = false := by
    cases k
    · exact absurd rfl hkne
    · rfl
  have hdrop := List.drop_left k (':' :: ' ' :: (v ++ '\n' :: renderKVDoc (i :: d2)))
  have hval : kvValueLen (v ++ '\n' :: renderKVDoc (i :: d2)) = some v.length :=
    kvValueLen_append hnv (kvLookahead_newline_render i d2)
  have hsp : isJsSpace ' ' = true := by decide
  have htakeleft := List.take_left v ('\n' :: renderKVDoc (i :: d2))
  simp only [kvExec, htake, hempty, Bool.false_eq_true, if_false, hdrop, hsp,
    if_true, hval, htakeleft]

/-- On the rendering of a well-formed key-value item that is the last
item of the document, `kvRegexp` does not match: the lookahead for the
start of the next line never succeeds. -/
theorem kvExec_render_single {k v : List Char} (hk : wfKey k) (hv : wfValue v) :
    kvExec (renderKVDoc [KVItem.kv k v]) = none := by
  obtain ⟨hkne, hkall⟩ := hk
  obtain ⟨-, hnv, -, -⟩ := hv
  have hshape : renderKVDoc [KVItem.kv k v] =
      '$' :: (k ++ ':' :: ' ' :: (v ++ ['\n'])) := by
    simp [renderKVDoc, renderKVItem]
  rw [hshape]
  have htake : (k ++ ':' :: ' ' :: (v ++ ['\n'])).takeWhile isKeyChar = k :=
    takeWhile_all_cons hkall (by decide)
  have hempty : k.isEmpty = false := by
    cases k
    · exact absurd rfl hkne
    · rfl
  have hdrop := List.drop_left k (':' :: ' ' :: (v ++ ['\n']))
  have hval : kvValueLen (v ++ ['\n']) = none :=
    kvValueLen_trailing_newline hnv
  have hsp : isJsSpace ' ' = true := by decide
  simp only [kvExec, htake, hempty, Bool.false_eq_true, if_false, hdrop, hsp,
    if_true, hval]

/-- A rendered document never begins with a blank line, so the parser's
blank-line skipping leaves it unchanged. -/
theorem skipNewlines_render (d : List KVItem) :
    skipNewlines (renderKVDoc d) = renderKVDoc d := by
  cases d with
  | nil => rfl
  | cons i d2 =>
    rw [renderKVDoc_cons]
    cases i with
    | kv k v =>
      rw [renderKVItem, List.cons_append]
      unfold skipNewlines
      rw [List.dropWhile_cons_of_neg (by decide)]
    | sep =>
      rw [renderKVItem,
        show (['-', '-', '-', '\n'] : List Char) ++ renderKVDoc d2 =
          '-' :: (['-', '-', '\n'] ++ renderKVDoc d2) from rfl]
      unfold skipNewlines
      rw [List.dropWhile_cons_of_neg (by decide)]

theorem parseKeyValueDeltaLoop_nil (fuel : Nat) :
    parseKeyValueDeltaLoop fuel [] = ([], []) := by
  cases fuel <;> rfl

theorem renderKVItem_length_ge (i : KVItem) : 4 ≤ (renderKVItem i).length := by
  cases i with
  | kv k v => simp [renderKVItem]; omega
  | sep => rfl

theorem renderKVDoc_cons_length (i : KVItem) (d : List KVItem) :
    (renderKVDoc (i :: d)).length =
      (renderKVItem i).length + (renderKVDoc d).length := by
  rw [renderKVDoc_cons]; simp

/-- Parsing the rendering of a well-formed document: the loop converts
every item to its token, except that a trailing key-value item stays in
the buffer (its lookahead can never succeed). -/
theorem parseKeyValueDeltaLoop_render :
    ∀ (n : Nat) (d : List KVItem), d.length ≤ n → (∀ i ∈ d, wfItem i) →
      ∀ fuel, (renderKVDoc d).length ≤ fuel →
      parseKeyValueDeltaLoop fuel (renderKVDoc d) = expectedLoop d := by
  intro n
  induction n with
  | zero =>
    intro d hd hw fuel hf
    have hnil : d = [] := List.length_eq_zero.mp (Nat.le_zero.mp hd)
    subst hnil
    simp [renderKVDoc, parseKeyValueDeltaLoop_nil, expectedLoop]
  | succ n ih =>
    intro d hd hw fuel hf
    cases d with
    | nil => simp [renderKVDoc, parseKeyValueDeltaLoop_nil, expectedLoop]
    | cons i d2 =>
      have hw2 : ∀ j ∈ d2, wfItem j := fun j hj => hw j (List.mem_cons_of_mem i hj)
      have hi4 := renderKVItem_length_ge i
      have hlen := renderKVDoc_cons_length i d2
      obtain ⟨f, rfl⟩ : ∃ f, fuel = f + 1 := by
        cases fuel
        · exfalso; omega
        · exact ⟨_, rfl⟩
      have hf2 : (renderKVDoc d2).length ≤ f := by omega
      cases i with
      | sep =>
        have hrender : renderKVDoc (KVItem.sep :: d2) =
            '-' :: '-' :: '-' :: '\n' :: renderKVDoc d2 := by
          rw [renderKVDoc_cons]; rfl
        have hkv : kvExec (renderKVDoc (KVItem.sep :: d2)) = none := by
          rw [hrender]; exact kvExec_cons_ne (by decide)
        have hsep : separatorMatches (renderKVDoc (KVItem.sep :: d2)) = true := by
          rw [hrender]; rfl
        rw [parseKeyValueDeltaLoop_sep_step hkv hsep]
        have hskip : skipNewlines ((renderKVDoc (KVItem.sep :: d2)).drop 3) =
            renderKVDoc d2 := by
          have hdrop3 : (renderKVDoc (KVItem.sep :: d2)).drop 3 =
              '\n' :: renderKVDoc d2 := by
            rw [hrender]; rfl
          rw [hdrop3]
          unfold skipNewlines
          rw [List.dropWhile_cons_of_pos (by decide)]
          exact skipNewlines_render d2
        rw [hskip, ih d2 (by simpa using Nat.le_of_succ_le_succ (by simpa using hd))
          hw2 f hf2]
        cases d2 with
        | nil => simp [expectedLoop]
        | cons j d3 => cases j <;> simp [expectedLoop]
      | kv k v =>
        obtain ⟨hk, hv⟩ : wfKey k ∧ wfValue v := hw _ (List.mem_cons_self _ _)
        have hne : (renderKVDoc (KVItem.kv k v :: d2)).isEmpty = false := by
          rw [renderKVDoc_cons, renderKVItem, List.cons_append]; rfl
        cases d2 with
        | nil =>
          have hkv := kvExec_render_single hk hv
          have hsep : separatorMatches (renderKVDoc [KVItem.kv k v]) = false := by
            rw [renderKVDoc_cons, renderKVItem, List.cons_append]
            exact separatorMatches_cons_ne (by decide)
          rw [parseKeyValueDeltaLoop]
          rw [hne]
          simp only [Bool.false_eq_true, if_false, hkv, hsep]
          simp [expectedLoop]
        | cons i2 d3 =>
          have hkvx := @kvExec_render_cons _ _ i2 d3 hk hv
          have hdropb : (renderKVDoc (KVItem.kv k v :: i2 :: d3)).drop
              (k.length + 3 + v.length + 1) = renderKVDoc (i2 :: d3) := by
            rw [renderKVDoc_cons]
            have hil : (renderKVItem (KVItem.kv k v)).length =
                k.length + 3 + v.length + 1 := by
              simp [renderKVItem]; omega
            rw [← hil, List.drop_left]
          rw [parseKeyValueDeltaLoop]
          rw [hne]
          simp only [Bool.false_eq_true, if_false, hkvx, hdropb,
            jsTrim_eq_self hv]
          have hd3 : (i2 :: d3).length ≤ n := by
            simp only [List.length_cons] at hd ⊢
            omega
          have hw3 : ∀ j ∈ i2 :: d3, wfItem j :=
            fun j hj => hw2 j hj
          cases i2 with
          | sep =>
            have hsep2 : separatorMatches (renderKVDoc (KVItem.sep :: d3)) = true := by
              rw [renderKVDoc_cons]; rfl
            simp only [hsep2, if_true]
            have hskip2 : skipNewlines ((renderKVDoc (KVItem.sep :: d3)).drop 3) =
                renderKVDoc d3 := by
              have hdrop3 : (renderKVDoc (KVItem.sep :: d3)).drop 3 =
                  '\n' :: renderKVDoc d3 := by
                rw [renderKVDoc_cons]; rfl
              rw [hdrop3]
              unfold skipNewlines
              rw [List.dropWhile_cons_of_pos (by decide)]
              exact skipNewlines_render d3
            rw [hskip2]
            have hfd3 : (renderKVDoc d3).length ≤ f := by
              have := renderKVDoc_cons_length KVItem.sep d3
              have h4 := renderKVItem_length_ge KVItem.sep
              omega
            rw [ih d3 (by simp only [List.length_cons] at hd3; omega)
              (fun j hj => hw3 j (List.mem_cons_of_mem _ hj)) f hfd3]
            cases d3 with
            | nil => simp [expectedLoop]
            | cons j d4 => cases j <;> simp [expectedLoop]
          | kv k2 v2 =>
            have hsep2 : separatorMatches
                (renderKVDoc (KVItem.kv k2 v2 :: d3)) = false := by
              rw [renderKVDoc_cons, renderKVItem, List.cons_append]
              exact separatorMatches_cons_ne (by decide)
            simp only [hsep2, Bool.false_eq_true, if_false]
            rw [ih (KVItem.kv k2 v2 :: d3) hd3 hw3 f hf2]
            cases d3 with
            | nil => simp [expectedLoop]
            | cons j d4 => cases j <;> simp [expectedLoop]

theorem serializeKVTokens_append (a b : List KVParse) :
    serializeKVTokens (a ++ b) = serializeKVTokens a ++ serializeKVTokens b := by
  simp [serializeKVTokens]

/-- Re-serializing the expected loop tokens and appending the expected
unconsumed buffer recovers the rendered document. -/
theorem serialize_expectedLoop (d : List KVItem) :
    serializeKVTokens (expectedLoop d).1 ++ (expectedLoop d).2 =
      renderKVDoc d := by
  induction d with
  | nil => rfl
  | cons i d2 ih =>
    cases i with
    | sep =>
      have he : expectedLoop (KVItem.sep :: d2) =
          (KVParse.separator :: (expectedLoop d2).1, (expectedLoop d2).2) := by
        cases d2 with
        | nil => rfl
        | cons j d3 => cases j <;> rfl
      rw [he, renderKVDoc_cons]
      show serializeKVToken KVParse.separator ++ serializeKVTokens (expectedLoop d2).1
          ++ (expectedLoop d2).2 = _
      rw [List.append_assoc, ih]
      rfl
    | kv k v =>
      cases d2 with
      | nil =>
        show serializeKVTokens [] ++ renderKVDoc [KVItem.kv k v] = _
        rfl
      | cons j d3 =>
        have he : expectedLoop (KVItem.kv k v :: j :: d3) =
            (KVParse.kv k v :: (expectedLoop (j :: d3)).1,
             (expectedLoop (j :: d3)).2) := by
          cases j <;> rfl
        rw [he, renderKVDoc_cons]
        show serializeKVToken (KVParse.kv k v) ++
            serializeKVTokens (expectedLoop (j :: d3)).1 ++
            (expectedLoop (j :: d3)).2 = _
        rw [List.append_assoc, ih]
        rfl

/-- C8 counterexample: a source value with a trailing space.  The parser
trims values, so re-serializing the tokens of
`parseKeyValueDelta "$K: v \n---"` does not reproduce the consumed
portion of the input (the trailing space of the value is lost), refuting
the round-trip as claimed. -/
theorem kv_roundtrip_counterexample :
    serializeKVTokens (parseKeyValueDelta ("$K: v \n---".toList)) ≠
      ("$K: v \n---".toList) := by
  decide

/-- C8 (amended).  Round-trip of the key-value parser on canonical
documents: for every well-formed document rendered canonically (keys from
the key character class; values non-empty, single-line and already
trimmed; each key line written `$KEY: value` with one line terminator;
each separator line written as the marker plus one line terminator),
re-serializing the tokens of `parseKeyValueDelta` in order — each
`KeyValue` and `Separator` back to its source text plus consumed
terminators, the terminal token contributing its `remaining` buffer —
reproduces the input exactly.  (On non-canonical inputs the round-trip
can fail: values are trimmed and skipped blank lines are not recorded,
as the counterexample shows.) -/
theorem kv_roundtrip (d : List KVItem) (hwf : ∀ i ∈ d, wfItem i) :
    serializeKVTokens (parseKeyValueDelta (renderKVDoc d)) = renderKVDoc d := by
  have hloop := parseKeyValueDeltaLoop_render d.length d (le_refl _) hwf
    (renderKVDoc d).length (le_refl _)
  simp only [parseKeyValueDelta, skipNewlines_render d, hloop]
  rw [serializeKVTokens_append]
  cases hik : incompleteKvExec (expectedLoop d).2 with
  | some r =>
    obtain ⟨k0, v0⟩ := r
    show serializeKVTokens (expectedLoop d).1 ++
        (serializeKVToken (KVParse.incomplete_kv k0 (jsTrim v0) (expectedLoop d).2)
          ++ []) = _
    rw [List.append_nil]
    exact serialize_expectedLoop d
  | none =>
    show serializeKVTokens (expectedLoop d).1 ++
        (serializeKVToken (KVParse.remaining (expectedLoop d).2) ++ []) = _
    rw [List.append_nil]
    exact serialize_expectedLoop d

/-- Closed witness for the amended C8 theorem at a concrete two-item
document. -/
theorem kv_roundtrip_witness :
    serializeKVTokens (parseKeyValueDelta (renderKVDoc
      [KVItem.kv ("K1".toList) ("va".toList), KVItem.sep])) =
    renderKVDoc [KVItem.kv ("K1".toList) ("va".toList), KVItem.sep] :=
  kv_roundtrip _ (by decide)

/-! ### Theorems: event-stream parser -/

/-- C1.  The code violates chunking invariance at a CRLF terminator split
across two fragments: the well-formed document `data: a\r\ndata: b\n\n`
dispatches no event at all when fed whole, but two separate events when
fed as `data: a\r` then `\ndata: b\n\n` (the one-shot
`discardTrailingNewline` flag is a local of `feed`, re-initialized on
every call, and the scan loop restarting from `startingPosition = 0`
re-arms it spuriously).  The spec's single-fragment/arbitrary-fragment
equivalence fails on both counts. -/
theorem crlf_chunking_divergence :
    (feedAll reset [("data: a\r\ndata: b\n\n".toList)]).2 = [] ∧
    (feedAll reset [("data: a\r".toList), ("\ndata: b\n\n".toList)]).2 =
      [ParseEvent.event none none ("a".toList),
       ParseEvent.event none none ("b".toList)] ∧
    (feedAll reset [("data: a\r\ndata: b\n\n".toList)]).2 ≠
      (feedAll reset [("data: a\r".toList), ("\ndata: b\n\n".toList)]).2 := by
  refine ⟨by decide, by decide, by decide⟩

theorem jsSlice_zero_negOne (l : List Char) : jsSlice l 0 (-1) = l.dropLast := by
  simp only [jsSlice]
  norm_num
  by_cases h : 1 < l.length
  · rw [if_pos h]
    have h2 : (((l.length : Int) + -1) ⊔ 0).toNat = l.length - 1 := by omega
    rw [h2, List.dropLast_eq_take]
  · rw [if_neg h]
    cases l with
    | nil => rfl
    | cons a t =>
      cases t with
      | nil => rfl
      | cons b t2 =>
        exfalso
        apply h
        simp only [List.length_cons]
        omega

/-- C5.  Blank-line behaviour of `parseEventStreamLine`: on a zero-length
line, an event is dispatched exactly when the pending data is non-empty;
the dispatched data is the pending data with exactly one trailing newline
removed; a dispatch clears the pending data and id; and the pending event
name is cleared unconditionally, dispatch or not (a named event with no
data lines is silently dropped).  The hypothesis is the parser's data
invariant: `data` is a concatenation of values each followed by one
newline, so it is empty or ends in a newline. -/
theorem blank_line_behavior
    (eventId eventName : Option (List Char)) (data lineBuffer : List Char)
    (index : Nat) (fieldLength : Int)
    (hdata : data = [] ∨ data.getLast? = some '\n') :
    (data = [] →
      parseEventStreamLine eventId eventName data lineBuffer index fieldLength 0 =
        (eventId, none, data, [])) ∧
    (data ≠ [] → ∃ d0, data = d0 ++ ['\n'] ∧
      parseEventStreamLine eventId eventName data lineBuffer index fieldLength 0 =
        (none, none, [],
         [ParseEvent.event eventId
            (match eventName with
             | some n => if n.isEmpty then none else some n
             | none => none) d0])) := by
  constructor
  · intro hnil
    subst hnil
    rfl
  · intro hne
    rcases hdata with h | h
    · exact absurd h hne
    · refine ⟨data.dropLast, ?_, ?_⟩
      · exact (List.dropLast_append_getLast? '\n' (by simp [h])).symm
      · have hlen : data.length > 0 := List.length_pos.mpr hne
        simp only [parseEventStreamLine, if_pos rfl, hlen, if_true]
        rw [jsSlice_zero_negOne]

/-- Closed witness for the C5 theorem at a concrete state. -/
theorem blank_line_behavior_witness :
    parseEventStreamLine (some ("3".toList)) (some ("ev".toList))
        ("x\n".toList) [] 0 (-1) 0 =
      (none, none, [],
       [ParseEvent.event (some ("3".toList)) (some ("ev".toList))
          ("x".toList)]) := by
  obtain ⟨-, h⟩ := blank_line_behavior (some ("3".toList)) (some ("ev".toList))
    ("x\n".toList) [] 0 (-1) (Or.inr (by decide))
  obtain ⟨d0, hd0, heq⟩ := h (by decide)
  have hx : d0 = ("x".toList) := by
    have h3 : d0 ++ ['\n'] = ("x".toList) ++ ['\n'] := by
      rw [← hd0]; rfl
    exact (List.append_cancel_right h3).symm.symm
  rw [hx] at heq
  exact heq

theorem hasBom_bomChars_append (s : List Char) :
    hasBom (bomChars ++ s) = true := by
  show hasBom (Char.ofNat 239 :: Char.ofNat 187 :: Char.ofNat 191 :: s) = true
  rfl

/-- C6.  Byte-order-mark handling.  (1) On the first feed of a reset
epoch, a leading mark (in the form `hasBom` checks: the UTF-8 byte values
239, 187, 191 as characters) is stripped: feeding `mark ++ s` from the
reset state is identical to feeding `s`.  (2) On any later feed no
stripping happens at all: `feed` coincides with the mark-oblivious
`feedSpecNoStrip`.  (3) Consequently an identical mark arriving
mid-stream is preserved as data, as the concrete run shows. -/
theorem bom_stripping :
    (∀ s : List Char, hasBom s = false →
      feed reset (bomChars ++ s) = feed reset s) ∧
    (∀ (st : ESState) (chunk : List Char), st.isFirstChunk = false →
      feed st chunk = feedSpecNoStrip st chunk) ∧
    ((feedAll reset [("data: ".toList), (bomChars ++ "\n\n".toList)]).2 =
      [ParseEvent.event none none bomChars]) := by
  refine ⟨?_, ?_, by decide⟩
  · intro s hs
    have h1 := hasBom_bomChars_append s
    have h2 : (bomChars ++ s).drop bomChars.length = s := List.drop_left _ _
    simp [feed, reset, h1, h2, hs]
  · intro st chunk hfc
    simp [feed, feedSpecNoStrip, hfc]

/-- Closed witness for the C6 theorem at a concrete input. -/
theorem bom_stripping_witness :
    feed reset (bomChars ++ ("x".toList)) = feed reset ("x".toList) :=
  bom_stripping.1 _ (by decide)

/-- C7 counterexample: the value `-5` is not a non-negative integer, yet
the parser dispatches `ReconnectInterval` for it — both at the line level
and through `feed` — because the implementation only guards against
`NaN`, refuting the claimed non-negativity condition. -/
theorem retry_negative_counterexample :
    parseEventStreamLine none none [] ("retry: -5".toList) 0 5 9 =
      (none, none, [], [ParseEvent.reconnectInterval (-5)]) ∧
    (feedAll reset [("retry: -5\n".toList)]).2 =
      [ParseEvent.reconnectInterval (-5)] := by
  refine ⟨by decide, by decide⟩

theorem jsSlice_nonneg (l : List Char) (s e : Int) (h0 : 0 ≤ s) (hs : s ≤ e)
    (he : e ≤ l.length) :
    jsSlice l s e = (l.drop s.toNat).take (e - s).toNat := by
  simp only [jsSlice]
  have h1 : ¬ (s < 0) := by omega
  have h2 : ¬ (e < 0) := by omega
  rw [if_neg h1, if_neg h2]
  have h3 : s ⊓ (l.length : Int) = s := by omega
  have h4 : e ⊓ (l.length : Int) = e := by omega
  rw [h3, h4]
  by_cases h5 : s < e
  · rw [if_pos h5]
  · rw [if_neg h5]
    have h8 : (e - s).toNat = 0 := by omega
    rw [h8]
    simp

/-- C7 (amended).  For every resolved line of the form `retry: v`, the
parser dispatches `ReconnectInterval{parseInt(v, 10)}` immediately (the
pending event state is untouched) precisely when `parseInt(v, 10)` is not
`NaN` — that is, when `v` starts, after optional whitespace and sign,
with at least one decimal digit — and drops the line silently otherwise.
Negative values are dispatched with their negative value, not dropped. -/
theorem retry_dispatch_policy
    (eventId eventName : Option (List Char)) (data v : List Char) :
    parseEventStreamLine eventId eventName data (("retry: ".toList) ++ v) 0 5
      (7 + (v.length : Int)) =
      (eventId, eventName, data,
       match jsParseInt v with
       | some r => [ParseEvent.reconnectInterval r]
       | none => []) := by
  have h0 : ¬ ((7 : Int) + (v.length : Int) = 0) := by omega
  have hlen : ((('r' :: 'e' :: 't' :: 'r' :: 'y' :: ':' :: ' ' :: v).length : Int))
      = 7 + (v.length : Int) := by
    push_cast [List.length_cons]
    ring
  have h1 : jsSlice ('r' :: 'e' :: 't' :: 'r' :: 'y' :: ':' :: ' ' :: v) 0 5 =
      ['r', 'e', 't', 'r', 'y'] := by
    rw [jsSlice_nonneg _ 0 5 (by omega) (by omega) (by rw [hlen]; omega)]
    rfl
  have hval : jsSlice ('r' :: 'e' :: 't' :: 'r' :: 'y' :: ':' :: ' ' :: v) 7
      (7 + (v.length : Int)) = v := by
    rw [jsSlice_nonneg _ 7 (7 + (v.length : Int)) (by omega) (by omega)
      (by rw [hlen])]
    have h6 : ((7 + (v.length : Int)) - 7).toNat = v.length := by omega
    rw [h6]
    show List.take v.length v = v
    simp
  have hget : ('r' :: 'e' :: 't' :: 'r' :: 'y' :: ':' :: ' ' :: v)[Int.toNat 6]? =
      some ' ' := by
    show ('r' :: 'e' :: 't' :: 'r' :: 'y' :: ':' :: ' ' :: v)[(6 : Nat)]? = some ' '
    simp
  simp only [parseEventStreamLine, if_neg h0]
  norm_num
  simp only [hget, h1, hval, reduceIte]
  have hd : ¬ ((['r', 'e', 't', 'r', 'y'] : List Char) = ['d', 'a', 't', 'a']) := by
    decide
  have hev : ¬ ((['r', 'e', 't', 'r', 'y'] : List Char) =
      ['e', 'v', 'e', 'n', 't']) := by
    decide
  have hid : ¬ ((['r', 'e', 't', 'r', 'y'] : List Char) = ['i', 'd'] ∧
      '\x00' ∉ v) :=
    fun h => absurd h.1 (by decide)
  rw [if_neg hd, if_neg hev, if_neg hid]
  cases jsParseInt v <;> rfl

/-- Closed witness for the amended C7 theorem at a concrete value. -/
theorem retry_dispatch_policy_witness :
    parseEventStreamLine none none [] (("retry: ".toList) ++ ("100x".toList)) 0 5
      (7 + (("100x".toList).length : Int)) =
      (none, none, [],
       match jsParseInt ("100x".toList) with
       | some r => [ParseEvent.reconnectInterval r]
       | none => []) :=
  retry_dispatch_policy none none [] ("100x".toList)

/-! ### Theorems: stream multiplexer -/

theorem countActive_eq_zero_never {α : Type} {slots : List (Slot α)}
    (h : countActive slots = 0) :
    ∀ (i : Nat), i < slots.length → slots[i]? = some Slot.never := by
  intro i hi
  have hmem : slots[i] ∈ slots := List.getElem_mem hi
  have := List.countP_eq_zero.mp h _ hmem
  cases hs : slots[i] with
  | active rem e => rw [hs] at this; simp [Slot.isActive] at this
  | never => rw [List.getElem?_eq_getElem hi, hs]

theorem filterTag_append_single {α : Type} (i : Nat) (out : List (Nat × α))
    (v : Nat × α) :
    filterTag i (out ++ [v]) =
      filterTag i out ++ (if v.1 = i then [v] else []) := by
  simp only [filterTag, List.filter_append]
  by_cases h : v.1 = i
  · simp [h]
  · simp [h]

theorem mergeRunLoop_invariant {α : Type} (tagged : List (MSource (Nat × α)))
    (htag : ∀ (i : Nat) (h : i < tagged.length),
      ∀ p ∈ (tagged.get ⟨i, h⟩).values, p.1 = i) :
    ∀ (steps : List MergeStep) (slots : List (Slot (Nat × α)))
      (out out2 : List (Nat × α)) (slots2 : List (Slot (Nat × α)))
      (oc : MergeOutcome),
      slots.length = tagged.length →
      (∀ p ∈ out, p.1 < tagged.length) →
      (∀ (i : Nat) (h : i < tagged.length) (slot : Slot (Nat × α)),
        slots[i]? = some slot → SlotInvariant tagged out i h slot) →
      mergeRunLoop steps slots out = some (out2, slots2, oc) →
      slots2.length = tagged.length ∧
      (∀ p ∈ out2, p.1 < tagged.length) ∧
      (∀ (i : Nat) (h : i < tagged.length) (slot : Slot (Nat × α)),
        slots2[i]? = some slot → SlotInvariant tagged out2 i h slot) ∧
      out.IsPrefix out2 ∧
      (oc = MergeOutcome.completed →
        ∀ (i : Nat), i < slots2.length → slots2[i]? = some Slot.never) := by
  intro steps
  induction steps with
  | nil =>
    intro slots out out2 slots2 oc hlen hout hinv hrun
    rw [mergeRunLoop.eq_def] at hrun
    by_cases hc : countActive slots = 0
    · rw [if_pos hc] at hrun
      obtain ⟨h1, h2, h3⟩ : out = out2 ∧ slots = slots2 ∧
          MergeOutcome.completed = oc := by
        simpa using hrun
      subst h1; subst h2; subst h3
      exact ⟨hlen, hout, hinv, List.prefix_refl _,
        fun _ => countActive_eq_zero_never hc⟩
    · rw [if_neg hc] at hrun
      simp at hrun
  | cons step rest ih =>
    intro slots out out2 slots2 oc hlen hout hinv hrun
    rw [mergeRunLoop.eq_def] at hrun
    by_cases hc : countActive slots = 0
    · rw [if_pos hc] at hrun
      obtain ⟨h1, h2, h3⟩ : out = out2 ∧ slots = slots2 ∧
          MergeOutcome.completed = oc := by
        simpa using hrun
      subst h1; subst h2; subst h3
      exact ⟨hlen, hout, hinv, List.prefix_refl _,
        fun _ => countActive_eq_zero_never hc⟩
    · rw [if_neg hc] at hrun
      cases step with
      | consumerStop =>
        obtain ⟨h1, h2, h3⟩ : out = out2 ∧ slots = slots2 ∧
            MergeOutcome.stopped = oc := by
          simpa using hrun
        subst h1; subst h2; subst h3
        refine ⟨hlen, hout, hinv, List.prefix_refl _, ?_⟩
        intro hoc
        exact absurd hoc.symm (by simp)
      | pull i =>
        simp only [] at hrun
        cases hsl : slots[i]? with
        | none => rw [hsl] at hrun; simp at hrun
        | some slot =>
          rw [hsl] at hrun
          have hilt : i < slots.length := by
            by_contra hge
            rw [List.getElem?_eq_none (by omega)] at hsl
            exact absurd hsl (by simp)
          have hit : i < tagged.length := by omega
          cases slot with
          | never => simp at hrun
          | active rem e =>
            have hslotinv := hinv i hit _ hsl
            cases rem with
            | nil =>
              cases e with
              | fault =>
                obtain ⟨h1, h2, h3⟩ : out = out2 ∧ slots = slots2 ∧
                    MergeOutcome.faulted = oc := by
                  simpa using hrun
                subst h1; subst h2; subst h3
                refine ⟨hlen, hout, hinv, List.prefix_refl _, ?_⟩
                intro hoc
                exact absurd hoc.symm (by simp)
              | complete =>
                obtain ⟨he, hv⟩ := hslotinv
                have H := ih (slots.set i Slot.never) out out2 slots2 oc
                  (by simpa using hlen) hout ?_ hrun
                · exact ⟨H.1, H.2.1, H.2.2.1, H.2.2.2.1, H.2.2.2.2⟩
                · intro j hj slot2 hsl2
                  by_cases hji : j = i
                  · subst hji
                    rw [List.getElem?_set_self hilt] at hsl2
                    obtain rfl := (Option.some.inj hsl2).symm
                    exact ⟨he.symm, by simpa using hv⟩
                  · rw [List.getElem?_set_ne (fun h => hji h.symm)] at hsl2
                    exact hinv j hj _ hsl2
            | cons v vs =>
              obtain ⟨he, hv⟩ := hslotinv
              have hvtag : v.1 = i := by
                apply htag i hit
                rw [← hv]
                exact List.mem_append.mpr (Or.inr (List.mem_cons_self _ _))
              have hout2 : ∀ p ∈ out ++ [v], p.1 < tagged.length := by
                intro p hp
                rcases List.mem_append.mp hp with hp | hp
                · exact hout p hp
                · have hpv : p = v := by simpa using hp
                  subst hpv
                  rw [hvtag]
                  exact hit
              have H := ih (slots.set i (Slot.active vs e)) (out ++ [v])
                out2 slots2 oc (by simpa using hlen) hout2 ?_ hrun
              · exact ⟨H.1, H.2.1, H.2.2.1,
                  List.IsPrefix.trans (List.prefix_append out [v]) H.2.2.2.1,
                  H.2.2.2.2⟩
              · intro j hj slot2 hsl2
                by_cases hji : j = i
                · subst hji
                  rw [List.getElem?_set_self hilt] at hsl2
                  obtain rfl := (Option.some.inj hsl2).symm
                  refine ⟨he, ?_⟩
                  rw [filterTag_append_single, if_pos hvtag]
                  rw [List.append_assoc]
                  simpa using hv
                · rw [List.getElem?_set_ne (fun h => hji h.symm)] at hsl2
                  have hold := hinv j hj _ hsl2
                  have hf : filterTag j (out ++ [v]) = filterTag j out := by
                    rw [filterTag_append_single,
                      if_neg (fun hh => hji (hvtag ▸ hh).symm)]
                    simp
                  cases slot2 with
                  | active rem2 e2 =>
                    obtain ⟨a, b⟩ := hold
                    exact ⟨a, by rw [hf]; exact b⟩
                  | never =>
                    obtain ⟨a, b⟩ := hold
                    exact ⟨a, by rw [hf]; exact b⟩

theorem sum_map_add_nat (l : List Nat) (f g : Nat → Nat) :
    (l.map (fun i => f i + g i)).sum = (l.map f).sum + (l.map g).sum := by
  induction l with
  | nil => rfl
  | cons x t ih => simp [List.map_cons, List.sum_cons, ih]; omega

theorem sum_indicator_range_zero {k n : Nat} (h : n ≤ k) :
    ((List.range n).map (fun i => if k = i then 1 else 0)).sum = 0 := by
  induction n with
  | zero => rfl
  | succ m ih =>
    rw [List.range_succ, List.map_append, List.sum_append, ih (by omega)]
    simp
    omega

theorem sum_indicator_range {k n : Nat} (h : k < n) :
    ((List.range n).map (fun i => if k = i then 1 else 0)).sum = 1 := by
  induction n with
  | zero => omega
  | succ m ih =>
    rw [List.range_succ, List.map_append, List.sum_append]
    by_cases hk : k = m
    · subst hk
      rw [sum_indicator_range_zero (le_refl _)]
      simp
    · rw [ih (by omega)]
      simp [hk]

theorem length_eq_sum_filterTag {α : Type} (n : Nat) (out : List (Nat × α))
    (hout : ∀ p ∈ out, p.1 < n) :
    out.length = ((List.range n).map (fun i => (filterTag i out).length)).sum := by
  induction out with
  | nil => simp [filterTag]
  | cons p out ih =>
    have hp : p.1 < n := hout p (List.mem_cons_self _ _)
    have ihh := ih (fun q hq => hout q (List.mem_cons_of_mem _ hq))
    have hsplit : ∀ i : Nat, (filterTag i (p :: out)).length =
        (if p.1 = i then 1 else 0) + (filterTag i out).length := by
      intro i
      simp only [filterTag, List.filter_cons]
      by_cases hpi : p.1 = i
      · simp [hpi]
        omega
      · simp [hpi]
    have hmap : (List.range n).map (fun i => (filterTag i (p :: out)).length) =
        (List.range n).map
          (fun i => (if p.1 = i then 1 else 0) + (filterTag i out).length) := by
      apply List.map_congr_left
      intro i _
      exact hsplit i
    rw [List.length_cons, ihh, hmap, sum_map_add_nat, sum_indicator_range hp]
    omega

theorem range_map_getD {β : Type} (l : List β) (d : β) :
    (List.range l.length).map (fun i => l.getD i d) = l := by
  induction l with
  | nil => rfl
  | cons x t ih =>
    rw [List.length_cons, List.range_succ_eq_map, List.map_cons, List.map_map]
    have : (fun i => (x :: t).getD i d) ∘ Nat.succ = fun i => t.getD i d := by
      funext i
      rfl
    rw [this]
    rw [ih]
    rfl

theorem tagSources_length {α : Type} (src : List (List α)) :
    (tagSources src).length = src.length := by
  simp [tagSources]

theorem tagSources_get {α : Type} (src : List (List α)) (i : Nat)
    (h : i < (tagSources src).length) :
    (tagSources src).get ⟨i, h⟩ =
      { values := (src.get ⟨i, by simpa [tagSources] using h⟩).map
          (fun a => (i, a)),
        ending := SourceEnd.complete } := by
  simp [tagSources, List.get_eq_getElem, List.getElem_map, List.getElem_enum]

theorem tagSources_htag {α : Type} (src : List (List α)) :
    ∀ (i : Nat) (h : i < (tagSources src).length),
      ∀ p ∈ ((tagSources src).get ⟨i, h⟩).values, p.1 = i := by
  intro i h p hp
  rw [tagSources_get] at hp
  obtain ⟨a, -, rfl⟩ := List.mem_map.mp hp
  rfl

/-- C2.  For every finite list of sources that each emit finitely many
values and then complete without fault, any complete `mergeGenerators`
run (any schedule of race resolutions that ends with the live-source
count at zero) yields every value of every source exactly once and then
completes: the merged output has exactly `sum of the source lengths`
elements, and its subsequence of values tagged `i` is exactly source
`i`'s value list in source order (no value dropped, none duplicated,
within-source order preserved). -/
theorem merge_yields_each_value_once {α : Type} (src : List (List α))
    (steps : List MergeStep) (rf : List Bool) (res : MergeResult (Nat × α))
    (hrun : mergeRun (tagSources src) steps rf = some res)
    (hoc : res.outcome = MergeOutcome.completed) :
    res.output.length = (src.map List.length).sum ∧
    ∀ (i : Nat) (h : i < src.length),
      filterTag i res.output = (src.get ⟨i, h⟩).map (fun a => (i, a)) := by
  unfold mergeRun at hrun
  cases hloop : mergeRunLoop steps
      ((tagSources src).map fun s => Slot.active s.values s.ending) [] with
  | none => rw [hloop] at hrun; simp at hrun
  | some r =>
    obtain ⟨out, slots, oc⟩ := r
    rw [hloop] at hrun
    have hout_eq : res.output = out := by
      have := hrun
      simp only [Option.some.injEq] at this
      rw [← this]
    have hoc_eq : res.outcome = oc := by
      have := hrun
      simp only [Option.some.injEq] at this
      rw [← this]
    have hinit_len : ((tagSources src).map
        fun s => Slot.active s.values s.ending).length =
          (tagSources src).length := by simp
    have hinit_inv : ∀ (i : Nat) (h : i < (tagSources src).length)
        (slot : Slot (Nat × α)),
        (((tagSources src).map fun s => Slot.active s.values s.ending)[i]? =
          some slot) → SlotInvariant (tagSources src) [] i h slot := by
      intro i h slot hsl
      rw [List.getElem?_map, List.getElem?_eq_getElem (by simpa using h)] at hsl
      simp only [Option.map_some', Option.some.injEq] at hsl
      subst hsl
      constructor
      · simp [List.get_eq_getElem]
      · simp [filterTag, List.get_eq_getElem]
    have H := mergeRunLoop_invariant (tagSources src) (tagSources_htag src)
      steps _ [] out slots oc hinit_len (by simp) hinit_inv hloop
    have hocc : oc = MergeOutcome.completed := by rw [← hoc_eq]; exact hoc
    have hnever := H.2.2.2.2 hocc
    have hslots_len : slots.length = (tagSources src).length := H.1
    have hperi : ∀ (i : Nat) (h : i < src.length),
        filterTag i out = (src.get ⟨i, h⟩).map (fun a => (i, a)) := by
      intro i h
      have hi' : i < (tagSources src).length := by
        rw [tagSources_length]; exact h
      have hsl := hnever i (by omega)
      have hinv2 := H.2.2.1 i hi' _ hsl
      obtain ⟨-, hfv⟩ := hinv2
      rw [hfv, tagSources_get]
    constructor
    · rw [hout_eq]
      rw [length_eq_sum_filterTag src.length out
        (by rw [← tagSources_length src]; exact H.2.1)]
      have hcong : (List.range src.length).map
          (fun i => (filterTag i out).length) =
          (List.range src.length).map
            (fun i => ((src.map List.length).getD i 0)) := by
        apply List.map_congr_left
        intro i hi
        have hi2 : i < src.length := List.mem_range.mp hi
        rw [hperi i hi2]
        rw [List.getD_eq_getElem?_getD, List.getElem?_map,
          List.getElem?_eq_getElem hi2]
        simp
      rw [hcong]
      have := range_map_getD (src.map List.length) 0
      rw [List.length_map] at this
      rw [this]
    · intro i h
      rw [hout_eq]
      exact hperi i h

theorem tagSourcesWith_length {α : Type} (src : List (List α × SourceEnd)) :
    (tagSourcesWith src).length = src.length := by
  simp [tagSourcesWith]

theorem tagSourcesWith_get {α : Type} (src : List (List α × SourceEnd)) (i : Nat)
    (h : i < (tagSourcesWith src).length) :
    (tagSourcesWith src).get ⟨i, h⟩ =
      { values := (src.get ⟨i, by simpa [tagSourcesWith] using h⟩).1.map
          (fun a => (i, a)),
        ending := (src.get ⟨i, by simpa [tagSourcesWith] using h⟩).2 } := by
  simp [tagSourcesWith, List.get_eq_getElem, List.getElem_map, List.getElem_enum]

theorem tagSourcesWith_htag {α : Type} (src : List (List α × SourceEnd)) :
    ∀ (i : Nat) (h : i < (tagSourcesWith src).length),
      ∀ p ∈ ((tagSourcesWith src).get ⟨i, h⟩).values, p.1 = i := by
  intro i h p hp
  rw [tagSourcesWith_get] at hp
  obtain ⟨a, -, rfl⟩ := List.mem_map.mp hp
  rfl

theorem mergeRunLoop_not_completed_active {α : Type} :
    ∀ (steps : List MergeStep) (slots : List (Slot α)) (out out2 : List α)
      (slots2 : List (Slot α)) (oc : MergeOutcome),
      mergeRunLoop steps slots out = some (out2, slots2, oc) →
      oc ≠ MergeOutcome.completed → countActive slots2 ≠ 0 := by
  intro steps
  induction steps with
  | nil =>
    intro slots out out2 slots2 oc hrun hoc
    rw [mergeRunLoop.eq_def] at hrun
    by_cases hc : countActive slots = 0
    · rw [if_pos hc] at hrun
      obtain ⟨-, -, h3⟩ : out = out2 ∧ slots = slots2 ∧
          MergeOutcome.completed = oc := by simpa using hrun
      exact absurd h3.symm hoc
    · rw [if_neg hc] at hrun
      simp at hrun
  | cons step rest ih =>
    intro slots out out2 slots2 oc hrun hoc
    rw [mergeRunLoop.eq_def] at hrun
    by_cases hc : countActive slots = 0
    · rw [if_pos hc] at hrun
      obtain ⟨-, -, h3⟩ : out = out2 ∧ slots = slots2 ∧
          MergeOutcome.completed = oc := by simpa using hrun
      exact absurd h3.symm hoc
    · rw [if_neg hc] at hrun
      cases step with
      | consumerStop =>
        obtain ⟨-, h2, -⟩ : out = out2 ∧ slots = slots2 ∧
            MergeOutcome.stopped = oc := by simpa using hrun
        rw [← h2]
        exact hc
      | pull i =>
        simp only [] at hrun
        cases hsl : slots[i]? with
        | none => rw [hsl] at hrun; simp at hrun
        | some slot =>
          rw [hsl] at hrun
          cases slot with
          | never => simp at hrun
          | active rem e =>
            cases rem with
            | nil =>
              cases e with
              | fault =>
                obtain ⟨-, h2, -⟩ : out = out2 ∧ slots = slots2 ∧
                    MergeOutcome.faulted = oc := by simpa using hrun
                rw [← h2]
                exact hc
              | complete => exact ih _ _ _ _ _ hrun hoc
            | cons v vs => exact ih _ _ _ _ _ hrun hoc

/-- C3.  Cancellation sweep: whenever a `mergeGenerators` run stops
before normal exhaustion (the consumer exits early, or a source's pull
faults and the fault propagates), the `finally` sweep sends
`generator.return` to exactly the sources whose slot was never retired
(signaled = not retired, one flag per source; at least one source is
still live at such a stop); a retired slot means its source had
completed normally with every value already yielded (so retired sources
receive no signal and lose nothing); and the results of the return calls
are ignored — however they fare (`rf2` arbitrary), the run's output,
outcome and sweep are unchanged, so a failing return never masks the
original error. -/
theorem merge_cancellation_sweep {α : Type} (src : List (List α × SourceEnd))
    (steps : List MergeStep) (rf : List Bool) (res : MergeResult (Nat × α))
    (hrun : mergeRun (tagSourcesWith src) steps rf = some res)
    (hoc : res.outcome ≠ MergeOutcome.completed) :
    res.signaled = res.retired.map (fun b => !b) ∧
    res.signaled.length = src.length ∧
    (∃ i : Nat, res.signaled[i]? = some true) ∧
    (∀ i : Nat, res.retired[i]? = some true →
      ∃ h : i < src.length,
        (src.get ⟨i, h⟩).2 = SourceEnd.complete ∧
        filterTag i res.output = (src.get ⟨i, h⟩).1.map (fun a => (i, a))) ∧
    (∀ rf2 : List Bool, ∃ res2 : MergeResult (Nat × α),
      mergeRun (tagSourcesWith src) steps rf2 = some res2 ∧
      res2.output = res.output ∧ res2.outcome = res.outcome ∧
      res2.retired = res.retired ∧ res2.signaled = res.signaled) := by
  unfold mergeRun at hrun
  cases hloop : mergeRunLoop steps
      ((tagSourcesWith src).map fun s => Slot.active s.values s.ending) [] with
  | none => rw [hloop] at hrun; simp at hrun
  | some r =>
    obtain ⟨out, slots, oc⟩ := r
    rw [hloop] at hrun
    simp only [Option.some.injEq] at hrun
    subst hrun
    have hinit_len : ((tagSourcesWith src).map
        fun s => Slot.active s.values s.ending).length =
          (tagSourcesWith src).length := by simp
    have hinit_inv : ∀ (i : Nat) (h : i < (tagSourcesWith src).length)
        (slot : Slot (Nat × α)),
        (((tagSourcesWith src).map fun s => Slot.active s.values s.ending)[i]? =
          some slot) → SlotInvariant (tagSourcesWith src) [] i h slot := by
      intro i h slot hsl
      rw [List.getElem?_map, List.getElem?_eq_getElem (by simpa using h)] at hsl
      simp only [Option.map_some', Option.some.injEq] at hsl
      subst hsl
      constructor
      · simp [List.get_eq_getElem]
      · simp [filterTag, List.get_eq_getElem]
    have H := mergeRunLoop_invariant (tagSourcesWith src)
      (tagSourcesWith_htag src) steps _ [] out slots oc hinit_len (by simp)
      hinit_inv hloop
    have hslots_len : slots.length = src.length := by
      rw [H.1, tagSourcesWith_length]
    refine ⟨?_, ?_, ?_, ?_, ?_⟩
    · simp [List.map_map, Function.comp, Bool.not_not]
    · simpa using hslots_len
    · have hact : countActive slots ≠ 0 :=
        mergeRunLoop_not_completed_active steps _ [] out slots oc hloop
          (by simpa using hoc)
      have hpos : 0 < slots.countP Slot.isActive := Nat.pos_of_ne_zero hact
      obtain ⟨slot, hmem, hsa⟩ := List.countP_pos_iff.mp hpos
      obtain ⟨i, hi, hget⟩ := List.getElem_of_mem hmem
      refine ⟨i, ?_⟩
      simp only []
      rw [List.getElem?_map, List.getElem?_eq_getElem hi, hget]
      simp [hsa]
    · intro i hret
      simp only [] at hret
      rw [List.getElem?_map] at hret
      cases hsl : slots[i]? with
      | none => rw [hsl] at hret; simp at hret
      | some slot =>
        rw [hsl] at hret
        simp only [Option.map_some', Option.some.injEq] at hret
        have hslot : slot = Slot.never := by
          cases slot with
          | active rem e => simp [Slot.isActive] at hret
          | never => rfl
        subst hslot
        have hi : i < slots.length := by
          by_contra hge
          rw [List.getElem?_eq_none (by omega)] at hsl
          exact absurd hsl (by simp)
        have hi2 : i < src.length := by omega
        have hi3 : i < (tagSourcesWith src).length := by
          rw [tagSourcesWith_length]; exact hi2
        have hinv2 := H.2.2.1 i hi3 _ hsl
        obtain ⟨hend, hfv⟩ := hinv2
        refine ⟨hi2, ?_, ?_⟩
        · rw [tagSourcesWith_get] at hend
          exact hend
        · rw [hfv, tagSourcesWith_get]
    · intro rf2
      refine ⟨{ output := out,
                retired := slots.map (fun s => !s.isActive),
                signaled := slots.map Slot.isActive,
                returnResults := (List.range slots.length).map fun i =>
                  if (slots[i]?.map Slot.isActive).getD false then
                    some (rf2.getD i false)
                  else none,
                outcome := oc }, ?_, rfl, rfl, rfl, rfl⟩
      unfold mergeRun
      rw [hloop]

/-- Closed witness for the C2 theorem: merging three sources that emit
5, 3 and 0 values yields exactly 8 values and completes; source 1's
values appear in order. -/
theorem merge_yields_each_value_once_witness :
    ([(0, 10), (0, 11), (0, 12), (0, 13), (0, 14), (1, 20), (1, 21), (1, 22)] :
      List (Nat × Nat)).length =
      (([[10, 11, 12, 13, 14], [20, 21, 22], []] : List (List Nat)).map
        List.length).sum ∧
    filterTag 1
      ([(0, 10), (0, 11), (0, 12), (0, 13), (0, 14), (1, 20), (1, 21), (1, 22)] :
        List (Nat × Nat)) =
      ([20, 21, 22] : List Nat).map (fun a => (1, a)) := by
  have h := merge_yields_each_value_once
    ([[10, 11, 12, 13, 14], [20, 21, 22], []] : List (List Nat))
    [MergeStep.pull 0, MergeStep.pull 0, MergeStep.pull 0, MergeStep.pull 0,
     MergeStep.pull 0, MergeStep.pull 0, MergeStep.pull 1, MergeStep.pull 1,
     MergeStep.pull 1, MergeStep.pull 1, MergeStep.pull 2] []
    { output := [(0, 10), (0, 11), (0, 12), (0, 13), (0, 14), (1, 20), (1, 21),
        (1, 22)],
      retired := [true, true, true],
      signaled := [false, false, false],
      returnResults := [none, none, none],
      outcome := MergeOutcome.completed }
    (by decide) (by decide)
  exact ⟨h.1, h.2 1 (by decide)⟩

/-- Closed witness for the C3 theorem: a run in which source 0 faults
after emitting 2 values, source 1 was fully consumed and retired, and
source 2 is still live — the sweep signals exactly sources 0 and 2. -/
theorem merge_cancellation_sweep_witness :
    ([true, false, true] : List Bool) =
      ([false, true, false] : List Bool).map (fun b => !b) ∧
    ([true, false, true] : List Bool).length = 3 := by
  have h := merge_cancellation_sweep
    ([([1, 2], SourceEnd.fault), ([5], SourceEnd.complete),
      ([9, 9], SourceEnd.complete)] : List (List Nat × SourceEnd))
    [MergeStep.pull 1, MergeStep.pull 1, MergeStep.pull 0, MergeStep.pull 0,
     MergeStep.pull 0] [true, false, true]
    { output := [(1, 5), (0, 1), (0, 2)],
      retired := [false, true, false],
      signaled := [true, false, true],
      returnResults := [some true, none, some true],
      outcome := MergeOutcome.faulted }
    (by decide) (by decide)
  exact ⟨h.1, h.2.1⟩

/-! ### Theorems: delta normalizers -/

theorem llmUsage_foldl_last_writer {C β : Type} (step : LLMUsage → C → LLMUsage)
    (proj : LLMUsage → Option β) (p : C → Bool) (g : C → Option β)
    (hstep : ∀ u c, proj (step u c) = if p c then g c else proj u)
    (cs : List C) (u0 : LLMUsage) :
    proj (cs.foldl step u0) = lastWrote p g cs (proj u0) := by
  induction cs generalizing u0 with
  | nil => rfl
  | cons c cs ih =>
    rw [List.foldl_cons, ih]
    rw [lastWrote, lastWrote, List.reverse_cons]
    cases hf : cs.reverse.find? p with
    | some d => simp [List.find?_append, hf]
    | none =>
      cases hpc : p c with
      | false => simp [List.find?_append, List.find?_cons, hf, hpc, hstep u0 c]
      | true => simp [List.find?_append, List.find?_cons, hf, hpc, hstep u0 c]

theorem find?_const_true {α : Type} (l : List α) :
    l.find? (fun _ => true) = l.head? := by
  cases l with
  | nil => rfl
  | cons a l => simp [List.find?_cons]

theorem lastWrote_const_true {C β : Type} (f : C → β) (cs : List C) (d : Option β) :
    lastWrote (fun _ => true) (fun c => some (f c)) cs d = (cs.getLast?.map f).or d := by
  rw [lastWrote, find?_const_true, List.head?_reverse]
  cases cs.getLast? <;> rfl

/-- C10.  Last-writer-wins usage accumulation: for each adapter and each
sequence of validated payloads folded over one shared accumulator, every
usage field ends at the value carried by the last payload that supplied
it (`responseModel` by every payload, the token counts by payloads
passing the write guard), and keeps its prior value if no payload wrote
it; concretely, two probe payloads with differing counts leave the
accumulator matching the second. -/
theorem usage_last_writer_wins :
    (∀ (u0 : LLMUsage) (cs : List GoogleLlmChunk),
      (googleUsageAfter u0 cs).responseModel =
        (cs.getLast?.map GoogleLlmChunk.modelVersion).or u0.responseModel ∧
      (googleUsageAfter u0 cs).promptTokens =
        lastWrote googleHasCounts
          (fun c => c.usageMetadata.bind GoogleUsageMetadata.promptTokenCount)
          cs u0.promptTokens ∧
      (googleUsageAfter u0 cs).completionTokens =
        lastWrote googleHasCounts
          (fun c => c.usageMetadata.bind GoogleUsageMetadata.candidatesTokenCount)
          cs u0.completionTokens) ∧
    (∀ (u0 : LLMUsage) (cs : List OpenAiChunk),
      (openAiUsageAfter u0 cs).responseModel =
        (cs.getLast?.map OpenAiChunk.model).or u0.responseModel ∧
      (openAiUsageAfter u0 cs).promptTokens =
        lastWrote (fun c => c.usage.isSome)
          (fun c => c.usage.map OpenAiUsage.prompt_tokens) cs u0.promptTokens ∧
      (openAiUsageAfter u0 cs).completionTokens =
        lastWrote (fun c => c.usage.isSome)
          (fun c => c.usage.map OpenAiUsage.completion_tokens) cs u0.completionTokens) ∧
    googleUsageAfter llmUsageInit [googleProbe1, googleProbe2] =
      { responseModel := some "gemini-2", promptTokens := some 10,
        completionTokens := some 7 } ∧
    openAiUsageAfter llmUsageInit [openAiProbe1, openAiProbe2] =
      { responseModel := some "gpt-b", promptTokens := some 21,
        completionTokens := some 9 } := by
  have hgm : ∀ (u : LLMUsage) (c : GoogleLlmChunk),
      (parseGoogleLlmDelta c u).2.responseModel =
        if (fun _ => true) c then some c.modelVersion else u.responseModel := by
    intro u c
    by_cases h : googleHasCounts c <;> simp [parseGoogleLlmDelta, h]
  have hgp : ∀ (u : LLMUsage) (c : GoogleLlmChunk),
      (parseGoogleLlmDelta c u).2.promptTokens =
        if googleHasCounts c then
          c.usageMetadata.bind GoogleUsageMetadata.promptTokenCount
        else u.promptTokens := by
    intro u c
    by_cases h : googleHasCounts c <;> simp [parseGoogleLlmDelta, h]
  have hgc : ∀ (u : LLMUsage) (c : GoogleLlmChunk),
      (parseGoogleLlmDelta c u).2.completionTokens =
        if googleHasCounts c then
          c.usageMetadata.bind GoogleUsageMetadata.candidatesTokenCount
        else u.completionTokens := by
    intro u c
    by_cases h : googleHasCounts c <;> simp [parseGoogleLlmDelta, h]
  have hom : ∀ (u : LLMUsage) (c : OpenAiChunk),
      (parseOpenAiDelta c u).2.responseModel =
        if (fun _ => true) c then some c.model else u.responseModel := by
    intro u c
    cases hu : c.usage <;> simp [parseOpenAiDelta, hu]
  have hop : ∀ (u : LLMUsage) (c : OpenAiChunk),
      (parseOpenAiDelta c u).2.promptTokens =
        if c.usage.isSome then c.usage.map OpenAiUsage.prompt_tokens
        else u.promptTokens := by
    intro u c
    cases hu : c.usage <;> simp [parseOpenAiDelta, hu]
  have hoc : ∀ (u : LLMUsage) (c : OpenAiChunk),
      (parseOpenAiDelta c u).2.completionTokens =
        if c.usage.isSome then c.usage.map OpenAiUsage.completion_tokens
        else u.completionTokens := by
    intro u c
    cases hu : c.usage <;> simp [parseOpenAiDelta, hu]
  refine ⟨fun u0 cs => ⟨?_, ?_, ?_⟩, fun u0 cs => ⟨?_, ?_, ?_⟩, by rfl, by rfl⟩
  · have h := llmUsage_foldl_last_writer (fun u c => (parseGoogleLlmDelta c u).2)
      LLMUsage.responseModel (fun _ => true) (fun c => some c.modelVersion) hgm cs u0
    rw [lastWrote_const_true GoogleLlmChunk.modelVersion cs u0.responseModel] at h
    exact h
  · exact llmUsage_foldl_last_writer (fun u c => (parseGoogleLlmDelta c u).2)
      LLMUsage.promptTokens googleHasCounts
      (fun c => c.usageMetadata.bind GoogleUsageMetadata.promptTokenCount) hgp cs u0
  · exact llmUsage_foldl_last_writer (fun u c => (parseGoogleLlmDelta c u).2)
      LLMUsage.completionTokens googleHasCounts
      (fun c => c.usageMetadata.bind GoogleUsageMetadata.candidatesTokenCount) hgc cs u0
  · have h := llmUsage_foldl_last_writer (fun u c => (parseOpenAiDelta c u).2)
      LLMUsage.responseModel (fun _ => true) (fun c => some c.model) hom cs u0
    rw [lastWrote_const_true OpenAiChunk.model cs u0.responseModel] at h
    exact h
  · exact llmUsage_foldl_last_writer (fun u c => (parseOpenAiDelta c u).2)
      LLMUsage.promptTokens (fun c => c.usage.isSome)
      (fun c => c.usage.map OpenAiUsage.prompt_tokens) hop cs u0
  · exact llmUsage_foldl_last_writer (fun u c => (parseOpenAiDelta c u).2)
      LLMUsage.completionTokens (fun c => c.usage.isSome)
      (fun c => c.usage.map OpenAiUsage.completion_tokens) hoc cs u0

/-- Closed witness for the C10 theorem: the two concrete probe pairs. -/
theorem usage_last_writer_wins_witness :
    googleUsageAfter llmUsageInit [googleProbe1, googleProbe2] =
      { responseModel := some "gemini-2", promptTokens := some 10,
        completionTokens := some 7 } ∧
    openAiUsageAfter llmUsageInit [openAiProbe1, openAiProbe2] =
      { responseModel := some "gpt-b", promptTokens := some 21,
        completionTokens := some 9 } :=
  ⟨usage_last_writer_wins.2.2.1, usage_last_writer_wins.2.2.2⟩

end Physi
